import Mathlib

/-!
MessageParser: the schema reader and the schema-driven decoder.

A shallow embedding of `MessageParser.c`: the decoder (`decodeleaves`,
`decodemessage`, the demo buffer of `writemessage`) over a schema tree
given by value, and the schema reader (`stripunwanted`, `parseline`, the
reading loop of `main`) over an explicit storage of allocated blocks.

Conventions of the embedding.

* A C string is a `String` (or the list of its characters);
  `strcmp(a, b) == 0` is equality.
* The platform is the one the program is built for with `gcc` on 64-bit
  Linux: `unsigned` is 32 bits wide, the machine is little-endian, and the
  smallest block `malloc` hands out has 24 usable bytes (`mallocUsable`).
* The input buffer is the list of bytes of the memory block the read
  pointer points into, and the read pointer is an offset into it.
* An execution that leaves the defined behaviour of the program has no
  result and is reported as a `Fault` (decoder) or `ParseFault` (reader):
  a `NULL` or released pointer dereferenced, a read past the end of the
  input block, a `memcpy` that writes past the block or variable it copies
  into, a slot or field read that the program never wrote.
* The text the program prints is not part of the embedding; the reads the
  printing statements perform are.
-/

namespace MessageParser

/-! ## Data model -/

/-- The struct `xmlleaf`: a declared byte count and a name. -/
structure xmlleaf_t where
  data : Nat
  name : String
  deriving Repr, DecidableEq

/-- The struct `xmlnode`, read-only view used by the decoder: `leaves` with
`nleaves = leaves.length`, `children` with `nchildren = children.length`
(the children are stored by value in the C array), and `name`.  The
`parent` back-pointer is never read by the decode functions. -/
inductive xmlnode_t where
  | mk (leaves : List xmlleaf_t) (children : List xmlnode_t) (name : String)

namespace xmlnode_t

/-- Field `leaves`. -/
def leaves : xmlnode_t → List xmlleaf_t
  | mk l _ _ => l

/-- Field `children`. -/
def children : xmlnode_t → List xmlnode_t
  | mk _ c _ => c

/-- Field `name`. -/
def name : xmlnode_t → String
  | mk _ _ n => n

/-- Field `nleaves`. -/
def nleaves (n : xmlnode_t) : Nat := n.leaves.length

/-- Field `nchildren`. -/
def nchildren (n : xmlnode_t) : Nat := n.children.length

end xmlnode_t

/-- The value of `sizeof(leaf->data)`, i.e. `sizeof(unsigned)`. -/
def sizeofUnsigned : Nat := 4

/-- The number of bytes that fit into the block `malloc(sizeof(leaf->data))`
returns: the usable size of the smallest heap block of the platform.  A
`memcpy` of more bytes into it overwrites the allocator's own data. -/
def mallocUsable : Nat := 24

/-- The struct `data`: one decoded field.  `data` holds the bytes that the
`memcpy` in `decodeleaves` copies; `alloc` is the size handed to `malloc`
for them. -/
structure data_t where
  size : Nat
  data : List UInt8
  name : String
  alloc : Nat
  deriving Repr, DecidableEq

/-- Executions of the decoder without a defined result: the `header`
pointer dereferenced while `NULL`; a `data_t` slot read that
`decodeleaves` never wrote; a field payload longer than the block
allocated for it; bytes read past the end of the input block; a field
payload longer than the `unsigned` variable it is copied over. -/
inductive Fault where
  | nullHeader
  | unwrittenSlot
  | heapOverflow
  | readPastEnd
  | stackOverwrite
  deriving Repr, DecidableEq

/-! ## decodeleaves -/

/-- The bytes `memcpy(dst, *input_buffer_ptr, n)` reads when they all lie
inside the input block: `n` bytes starting at offset `cur`. -/
def readBytes (buf : List UInt8) (cur n : Nat) : List UInt8 :=
  (buf.drop cur).take n

/-- Outcome of a returning `decodeleaves`: the returned flag, the advanced
read pointer and the `data_t` slots written through `*dataptr`, in order. -/
structure LeavesResult where
  ret : Bool
  cursor : Nat
  written : List data_t
  deriving Repr, DecidableEq

/-- The `for` loop of `decodeleaves` over the leaves still to visit.  A
leaf of 1024 bytes or more ends the loop with `false`.  For any other leaf
`leaf->data` bytes are copied from the read pointer into the block
`malloc(sizeof(leaf->data))`: the copy leaves the block when the leaf
declares more than `mallocUsable` bytes, and it leaves the input block
when fewer bytes than declared remain in it. -/
def decodeleavesLoop (buf : List UInt8) : List xmlleaf_t → Nat → Except Fault LeavesResult
  | [], cur => .ok ⟨true, cur, []⟩
  | leaf :: rest, cur =>
    if leaf.data ≥ 1024 then .ok ⟨false, cur, []⟩
    else if leaf.data > mallocUsable then .error .heapOverflow
    else if cur + leaf.data > buf.length then .error .readPastEnd
    else
      match decodeleavesLoop buf rest (cur + leaf.data) with
      | .error e => .error e
      | .ok r =>
        .ok ⟨r.ret, r.cursor,
          ⟨leaf.data, readBytes buf cur leaf.data, leaf.name, sizeofUnsigned⟩ :: r.written⟩

/-- The function `decodeleaves(node, input_buffer_ptr, dataptr)`. -/
def decodeleaves (node : xmlnode_t) (buf : List UInt8) (cur : Nat) :
    Except Fault LeavesResult :=
  decodeleavesLoop buf node.leaves cur

/-! ## decodemessage -/

/-- The four bytes of an `unsigned`, least significant first. -/
def unsignedBytes (v : Nat) : List Nat :=
  [v % 256, v / 256 % 256, v / 65536 % 256, v / 16777216 % 256]

/-- The `unsigned` stored in (up to four) little-endian bytes. -/
def unsignedOfBytes : List Nat → Nat
  | [] => 0
  | b :: bs => b + 256 * unsignedOfBytes bs

/-- The value of an `unsigned` variable holding `old` after
`memcpy(&var, data, size)`: the first `size` bytes of the variable are
replaced by the bytes of `data`.  With `size` above `sizeof(unsigned)` the
copy runs over the variables next to it. -/
def memcpyUnsigned (old : Nat) (data : List UInt8) (size : Nat) : Except Fault Nat :=
  if size > sizeofUnsigned then .error .stackOverwrite
  else .ok (unsignedOfBytes ((data.take size).map (·.toNat) ++ (unsignedBytes old).drop size))

/-- The locals filled by the header scan of `decodemessage`. -/
structure HeaderScan where
  message_format_ID : Nat
  has_message_format_ID : Bool
  error_flag : Nat
  has_error_flag : Bool
  deriving Repr, DecidableEq

/-- One iteration of the header scan on the slot `header_data[i]`. -/
def scanStep (s : HeaderScan) (f : data_t) : Except Fault HeaderScan :=
  if f.name = "messageformatID" then
    match memcpyUnsigned s.message_format_ID f.data f.size with
    | .error e => .error e
    | .ok v => .ok { s with message_format_ID := v, has_message_format_ID := true }
  else if f.name = "errorflag" then
    match memcpyUnsigned s.error_flag f.data f.size with
    | .error e => .error e
    | .ok v => .ok { s with error_flag := v, has_error_flag := true }
  else .ok s

/-- The header scan `for(i = 0; i < header->nleaves; ++i)`, from index
`nleaves - todo` on: `slots` are the written slots not yet visited. -/
def scanLoop : Nat → List data_t → HeaderScan → Except Fault HeaderScan
  | 0, _, s => .ok s
  | _ + 1, [], _ => .error .unwrittenSlot
  | todo + 1, f :: fs, s =>
    match scanStep s f with
    | .error e => .error e
    | .ok s1 => scanLoop todo fs s1

/-- The header scan of `decodemessage` over `header_data`, of which
`written` are the slots `decodeleaves` filled. -/
def scanheader (nleaves : Nat) (written : List data_t) : Except Fault HeaderScan :=
  scanLoop nleaves written ⟨0, false, 0, false⟩

/-- The closing loop of `decodemessage`, `for(i = 0; i < body->nleaves; ++i)`,
from index `i` on with `todo` iterations left: `slots` are the written
slots of `body_data` not yet visited.  Each iteration passes
`body_data[i].name` to `printf` and reads the byte `*(body_data[i].data+i)`,
which lies in the block of the field only for `i` below `mallocUsable`. -/
def closingLoop : Nat → Nat → List data_t → Except Fault Unit
  | 0, _, _ => .ok ()
  | _ + 1, _, [] => .error .unwrittenSlot
  | todo + 1, i, _ :: fs =>
    if i ≥ mallocUsable then .error .readPastEnd else closingLoop todo (i + 1) fs

/-- The lookup loops of `decodemessage`: the index of the first child whose
name equals `name`, if any. -/
def findchild (name : String) : List xmlnode_t → Option Nat
  | [] => none
  | c :: cs => if c.name = name then some 0 else (findchild name cs).map (· + 1)

/-- The local array `bodyformat` after `bodyformat[10] = 48+message_format_ID`,
read as a C string: the stored `char` is the sum modulo 256, and a zero
byte ends the string after `"bodyformat"`. -/
def bodyformat (message_format_ID : Nat) : String :=
  let c := (48 + message_format_ID) % 256
  if c = 0 then "bodyformat" else "bodyformat".push (Char.ofNat c)

/-- Final state of a returning `decodemessage`: the returned flag, the read
pointer, the written `header_data` slots, the index of the child chosen as
`body` (if the lookup was reached and found one) and the written
`body_data` slots. -/
structure DecodeState where
  ret : Bool
  cursor : Nat
  header_data : List data_t
  body : Option Nat
  body_data : List data_t
  deriving Repr, DecidableEq

/-- The function `decodemessage(current, input_buffer_ptr, output_buffer_ptr)`. -/
def decodemessage (current : Option xmlnode_t) (buf : List UInt8) (cur : Nat) :
    Except Fault DecodeState :=
  match current with
  | none => .ok ⟨false, cur, [], none, []⟩
  | some current =>
    if current.name ≠ "messageformats" then
      .ok ⟨false, cur, [], none, []⟩
    else
      match findchild "headerformat" current.children with
      | none => .error .nullHeader
      | some hi =>
        let header := current.children.getD hi (xmlnode_t.mk [] [] "")
        match decodeleaves header buf cur with
        | .error e => .error e
        | .ok h =>
          match scanheader header.nleaves h.written with
          | .error e => .error e
          | .ok s =>
            if s.has_error_flag = false ∨ s.error_flag > 0 then
              .ok ⟨false, h.cursor, h.written, none, []⟩
            else
              match findchild (bodyformat s.message_format_ID) current.children with
              | none => .ok ⟨false, h.cursor, h.written, none, []⟩
              | some bi =>
                let body := current.children.getD bi (xmlnode_t.mk [] [] "")
                match decodeleaves body buf h.cursor with
                | .error e => .error e
                | .ok b =>
                  match closingLoop body.nleaves 0 b.written with
                  | .error e => .error e
                  | .ok _ => .ok ⟨true, b.cursor, h.written, some bi, b.written⟩

/-- The 22 bytes `writemessage` stores in the input buffer:
`typeID`, `errorflag`, the four words of `data_1`, and the low halves of
`data_2 = 34952` and `data_3 = 61166`. -/
def writemessage : List UInt8 :=
  [0x01, 0x00,
   0xBE, 0xBA, 0xEF, 0xBE, 0x01, 0x00, 0x00, 0x00,
   0x02, 0x00, 0x00, 0x00, 0x03, 0x00, 0x00, 0x00,
   0x88, 0x88, 0xEE, 0xEE]

/-- The block `input_buffer` of `main` once a message of at most 1024
bytes is stored at its start: 1024 bytes from `malloc`, zeroed by `memset`
before the message is written.  With `writemessage` as the message this is
the block `main` passes to `decodemessage`. -/
def input_buffer (message : List UInt8) : List UInt8 :=
  message ++ List.replicate (1024 - message.length) 0

/-- The schema of the reference scenario. -/
def referenceSchema : xmlnode_t :=
  .mk [] [ .mk [⟨1, "messageformatID"⟩, ⟨1, "errorflag"⟩] [] "headerformat",
           .mk [⟨16, "x"⟩, ⟨2, "y"⟩, ⟨2, "z"⟩] [] "bodyformat1" ] "messageformats"

/-- Sum of the declared sizes of a list of leaves. -/
def leafSizes (ls : List xmlleaf_t) : Nat := (ls.map (·.data)).sum

/-- The slots a complete pass of `decodeleaves` writes for the leaves `ls`
from offset `cur`: one field per leaf, in order, each with the leaf's
name and size and the bytes at its offset. -/
def fieldsOf (buf : List UInt8) : List xmlleaf_t → Nat → List data_t
  | [], _ => []
  | leaf :: rest, cur =>
    ⟨leaf.data, readBytes buf cur leaf.data, leaf.name, sizeofUnsigned⟩ ::
      fieldsOf buf rest (cur + leaf.data)

/-! ## stripunwanted -/

/-- Executions of the schema reader without a defined result:
`stripunwanted` indexing a string before its start; `parseline` on a line
without `<` or without `>` (pointer arithmetic on `NULL`); on a line whose
first `>` precedes its first `<` (`tag_length-2` wraps and `strncpy`
overruns `tag_name`); dereferencing `current` when it is `NULL`;
dereferencing a pointer into a block that is not allocated; `atoi` on a
value outside `int`; reading `nchildren` or `nleaves` of a node in which
nothing ever stored them. -/
inductive ParseFault where
  | indexBeforeStart
  | noTag
  | tagLengthWraps
  | nullCurrent
  | invalidPointer
  | atoiOverflow
  | uninitialised
  deriving Repr, DecidableEq

/-- The test `c == ' ' || c == '\t' || c == '\n'` of `stripunwanted`. -/
def isunwanted (c : Char) : Bool := c = ' ' || c = '\t' || c = '\n'

/-- The character `line[idx]` of a C string: past the last character sits
the terminating zero. -/
def charAt (line : List Char) (idx : Nat) : Char := line.getD idx (Char.ofNat 0)

/-- The second loop of `stripunwanted`, `while(unwanted(line[idx])) --idx;`:
the index it stops at, or `none` when `--idx` is applied to `idx == 0`. -/
def trailingLoop (line : List Char) : Nat → Option Nat
  | 0 => if isunwanted (charAt line 0) then none else some 0
  | idx + 1 => if isunwanted (charAt line (idx + 1)) then trailingLoop line idx else some (idx + 1)

/-- The third loop of `stripunwanted`: at `idx`, an unwanted character is
erased by shifting the tail left (and `idx` stays), any other character is
stepped over.  `fuel` bounds the iterations; `strlen(line) - idx` suffices. -/
def removeLoop : Nat → List Char → Nat → List Char
  | 0, line, _ => line
  | fuel + 1, line, idx =>
    if idx < line.length then
      if isunwanted (charAt line idx) then removeLoop fuel (line.eraseIdx idx) idx
      else removeLoop fuel line (idx + 1)
    else line

/-- The function `stripunwanted(line)`, returning the new content of `line`.
After the leading characters are dropped, `idx = strlen(line)-1` is
computed in `unsigned`; on an empty string it is `UINT_MAX` and `line[idx]`
lies outside the string. -/
def stripunwanted (line : List Char) : Except ParseFault (List Char) :=
  let idx := (line.takeWhile isunwanted).length
  let line1 := if idx > 0 then line.drop idx else line
  if line1.length = 0 then .error .indexBeforeStart
  else
    match trailingLoop line1 (line1.length - 1) with
    | none => .error .indexBeforeStart
    | some idx2 =>
      let line2 := line1.take (idx2 + 1)
      .ok (removeLoop line2.length line2 0)

/-! ## parseline

The builder works on pointers.  Storage is a list of blocks, one per
`malloc`/`realloc` result that holds nodes, in allocation order; a block is
`none` once it has been released.  A node pointer names a block and an
index into it.  The first block is the one-node allocation of the head
node; every other block is the `children` array of some node, whose
elements are the child nodes themselves (the C array stores them by
value).  `realloc` yields a new block and releases the old one.

`parseline` never writes `nleaves`, `leaves`, `nchildren` or `children` of a
node it allocates: they hold what the storage handed out by `malloc` or
`realloc` held.  Whether that storage is zero-filled is not decided by the
program, so it is an input of `parseline`.  In zero-filled storage the new
node has no leaves and a `NULL` children array; otherwise its four fields
are not initialised, and a later read of `nchildren` or `nleaves` of that
node has no defined result.  For an initialised node `nleaves` is the
length of `leaves`, and `nchildren` is the length of the children array
(0 for `NULL`).
-/

/-- A value of type `xmlnode_t *` that points at a node. -/
structure NodePtr where
  block : Nat
  index : Nat
  deriving Repr, DecidableEq

/-- The struct `xmlnode` as the builder stores it: `children` is the
pointer to the children array (`none` for `NULL`) and `parent` the parent
pointer (`none` for `NULL`).  `initialised` tells whether `nleaves`,
`leaves`, `nchildren` and `children` hold values at all: they do when the
node was created in zero-filled storage, and `leaves` and `children` are
their values then. -/
structure xmlnode where
  leaves : List xmlleaf_t
  children : Option Nat
  parent : Option NodePtr
  name : String
  initialised : Bool
  deriving Repr, DecidableEq

/-- The storage the builder has allocated, and the variable `current` of
`main` that `parseline` receives as `*currentptr`. -/
structure ParseState where
  blocks : List (Option (List xmlnode))
  current : Option NodePtr
  deriving Repr, DecidableEq

/-- The state of `main` before the first line: nothing allocated,
`current == NULL`. -/
def ParseState.empty : ParseState := ⟨[], none⟩

/-- The live block `b`, if any. -/
def ParseState.block (s : ParseState) (b : Nat) : Option (List xmlnode) :=
  (s.blocks[b]?).getD none

/-- The node `*p`, if `p` points into a live block. -/
def ParseState.deref (s : ParseState) (p : NodePtr) : Option xmlnode :=
  match s.block p.block with
  | none => none
  | some cells => cells[p.index]?

/-- The storage after the assignment `*p = node`. -/
def ParseState.store (s : ParseState) (p : NodePtr) (node : xmlnode) : ParseState :=
  match s.block p.block with
  | none => s
  | some cells => { s with blocks := s.blocks.set p.block (some (cells.set p.index node)) }

/-- The call `strchr(s, c)`: the offset of the first `c` in `s`. -/
def strchr : List Char → Char → Option Nat
  | [], _ => none
  | x :: xs, c => if x = c then some 0 else (strchr xs c).map (· + 1)

/-- The content of a zeroed buffer after `strncpy(buffer, src, n)`. -/
def strncpy (src : List Char) (n : Nat) : List Char := src.take n

/-- The test `isspace(c)` in the C locale. -/
def isspace (c : Char) : Bool :=
  c = ' ' || c = '\t' || c = '\n' || c = Char.ofNat 11 || c = Char.ofNat 12 || c = '\r'

/-- The digit loop of `atoi`: accumulate decimal digits, stop at the first
other character. -/
def atoiDigits : Nat → List Char → Nat
  | acc, [] => acc
  | acc, c :: cs => if c.isDigit then atoiDigits (10 * acc + (c.toNat - 48)) cs else acc

/-- The call `atoi(s)`: skip white space, read an optional sign and the
decimal digits.  The result is `none` when the value is not representable
in `int` (32 bits), where the C behaviour is undefined. -/
def atoi (s : List Char) : Option Int :=
  match s.dropWhile isspace with
  | '-' :: r => if atoiDigits 0 r ≤ 2147483648 then some (-(atoiDigits 0 r : Int)) else none
  | '+' :: r => if atoiDigits 0 r < 2147483648 then some (atoiDigits 0 r : Int) else none
  | r => if atoiDigits 0 r < 2147483648 then some (atoiDigits 0 r : Int) else none

/-- The conversion of an `int` to `unsigned` (32 bits). -/
def toUnsigned (v : Int) : Nat := (v % 4294967296).toNat

/-- The function `parseline(line, currentptr)`: the returned flag and the
state after the call.  `zeroed` tells whether the storage `malloc` or
`realloc` hands out during the call is zero-filled where the new node
lies. -/
def parseline (line : List Char) (zeroed : Bool) (s : ParseState) :
    Except ParseFault (Bool × ParseState) :=
  let line_length := line.length
  if line_length = 0 ∨ line_length > 99 then .ok (false, s)
  else
    match strchr line '<', strchr line '>' with
    | some tag_start, some tag_end =>
      if tag_end < tag_start then .error .tagLengthWraps
      else
        let tag_length := tag_end - tag_start + 1
        let tag_name := strncpy (line.drop (tag_start + 1)) (tag_length - 2)
        if line_length = tag_length then
          if strchr tag_name '/' = none then
            -- Option 1: an opening tag
            match s.current with
            | none =>
              .ok (true, ⟨s.blocks ++ [some [⟨[], none, none, String.mk tag_name, zeroed⟩]],
                          some ⟨s.blocks.length, 0⟩⟩)
            | some cur =>
              match s.deref cur with
              | none => .error .invalidPointer
              | some node =>
                if node.initialised = false then .error .uninitialised
                else
                  match node.children with
                  | none =>
                    let s1 := s.store cur { node with children := some s.blocks.length }
                    .ok (true,
                      ⟨s1.blocks ++ [some [⟨[], none, some cur, String.mk tag_name, zeroed⟩]],
                       some ⟨s.blocks.length, 0⟩⟩)
                  | some old =>
                    match s.block old with
                    | none => .error .invalidPointer
                    | some cells =>
                      let s1 := s.store cur { node with children := some s.blocks.length }
                      .ok (true,
                        ⟨s1.blocks.set old none ++
                            [some (cells ++ [⟨[], none, some cur, String.mk tag_name, zeroed⟩])],
                         some ⟨s.blocks.length, cells.length⟩⟩)
          else
            -- Option 2: a closing tag
            match s.current with
            | none => .error .nullCurrent
            | some cur =>
              match s.deref cur with
              | none => .error .invalidPointer
              | some node =>
                match node.parent with
                | none => .ok (true, s)
                | some p => .ok (true, { s with current := some p })
        else
          -- Option 3: a leaf line
          match strchr (line.drop tag_end) '<' with
          | none => .ok (false, s)
          | some off =>
            let data_length := off + 1
            let data_string := strncpy (line.drop (tag_end + 1)) (data_length - 2)
            match atoi data_string with
            | none => .error .atoiOverflow
            | some v =>
              match s.current with
              | none => .error .nullCurrent
              | some cur =>
                match s.deref cur with
                | none => .error .invalidPointer
                | some node =>
                  if node.initialised = false then .error .uninitialised
                  else
                    .ok (true, s.store cur
                      { node with leaves := node.leaves ++ [⟨toUnsigned v, String.mk tag_name⟩] })
    | _, _ => .error .noTag

/-- Feeding `parseline` a sequence of normalized lines, one call per line,
as long as the calls return `true`.  Each line comes with what the
allocator hands out during its call. -/
def parselines : List (Bool × List Char) → ParseState → Except ParseFault (Bool × ParseState)
  | [], s => .ok (true, s)
  | (zeroed, line) :: rest, s =>
    match parseline line zeroed s with
    | .error e => .error e
    | .ok (false, s1) => .ok (false, s1)
    | .ok (true, s1) => parselines rest s1

/-- The lines `lines`, each parsed with the allocator handing out
zero-filled storage. -/
def zeroedLines (lines : List (List Char)) : List (Bool × List Char) :=
  lines.map (fun ln => (true, ln))

/-- The reading loop of `main` over the raw lines of the schema file: a
line containing `!` is skipped, any other line is stripped and parsed, and
the loop is left at the first line `parseline` rejects.  The flag is
`parse_success`.  Each raw line comes with what the allocator hands out
while it is parsed. -/
def main_readlines : List (Bool × List Char) → ParseState →
    Except ParseFault (Bool × ParseState)
  | [], s => .ok (true, s)
  | (zeroed, raw) :: rest, s =>
    if strchr raw '!' ≠ none then main_readlines rest s
    else
      match stripunwanted raw with
      | .error e => .error e
      | .ok line =>
        match parseline line zeroed s with
        | .error e => .error e
        | .ok (false, s1) => .ok (false, s1)
        | .ok (true, s1) => main_readlines rest s1

/-- The child nodes of `node`, in order: the elements of its children
array. -/
def ParseState.kids (s : ParseState) (node : xmlnode) : List xmlnode :=
  match node.children with
  | none => []
  | some b => (s.block b).getD []

/-- The number a string of decimal digits denotes. -/
def decimalValue (digits : List Char) : Nat :=
  digits.foldl (fun acc c => 10 * acc + (c.toNat - 48)) 0

/-! ## The canonical text of a schema tree and the tree a storage holds -/

/-- The line `<name>`. -/
def openLine (n : String) : List Char := '<' :: (n.data ++ ['>'])

/-- The line `</name>`. -/
def closeLine (n : String) : List Char := '<' :: '/' :: (n.data ++ ['>'])

/-- The line `<leafname>SIZE</leafname>` with `SIZE` in decimal. -/
def leafLine (l : xmlleaf_t) : List Char :=
  '<' :: (l.name.data ++ '>' :: (Nat.toDigits 10 l.data ++ '<' :: '/' :: (l.name.data ++ ['>'])))

mutual
/-- The canonical text of a tree: the line `<name>`, one leaf line per leaf
in order, the canonical text of each child in order, the line `</name>`. -/
def canonicalText : xmlnode_t → List (List Char)
  | .mk ls cs n => openLine n :: (ls.map leafLine ++ (canonicalTextList cs ++ [closeLine n]))
/-- The canonical texts of a list of trees, one after the other. -/
def canonicalTextList : List xmlnode_t → List (List Char)
  | [] => []
  | c :: cs => canonicalText c ++ canonicalTextList cs
end

/-- A character allowed in a name: none of `<`, `>`, `/`, `!`, space, tab,
newline. -/
def validChar (c : Char) : Bool :=
  !(c = '<' || c = '>' || c = '/' || c = '!' || c = ' ' || c = '\t' || c = '\n')

/-- A non-empty name made of allowed characters. -/
def validName (n : String) : Bool := !n.data.isEmpty && n.data.all validChar

/-- A leaf whose name is valid, whose size fits in `int` and whose line has
at most 99 characters. -/
def validLeaf (l : xmlleaf_t) : Bool :=
  validName l.name && decide (l.data < 2147483648) && decide ((leafLine l).length ≤ 99)

mutual
/-- The trees the round trip is stated for: every node and leaf name is
valid, every leaf size fits in `int`, and every line of the canonical text
has at most 99 characters. -/
def wellFormed : xmlnode_t → Bool
  | .mk ls cs n =>
    validName n && decide ((openLine n).length ≤ 99) && decide ((closeLine n).length ≤ 99) &&
      ls.all validLeaf && wellFormedList cs
/-- Every tree of the list is well formed. -/
def wellFormedList : List xmlnode_t → Bool
  | [] => true
  | c :: cs => wellFormed c && wellFormedList cs
end

mutual
/-- The node `node` of storage `s` holds the tree `t`: its fields are
initialised, same name, same leaves in the same order, a `NULL` children
array exactly when the tree has no children, and otherwise a children
array whose elements hold the children of `t` in order.  `P` bounds the
blocks the children arrays of this subtree may occupy. -/
def ReprIn (s : ParseState) (P : Nat → Prop) : xmlnode → xmlnode_t → Prop
  | node, .mk ls cs n =>
    node.initialised = true ∧
    node.name = n ∧ node.leaves = ls ∧ (node.children = none ↔ cs = []) ∧
      (∀ b, node.children = some b → P b) ∧ ReprListIn s P (s.kids node) cs
/-- The nodes `cells` hold the trees `ts`, one by one in order. -/
def ReprListIn (s : ParseState) (P : Nat → Prop) : List xmlnode → List xmlnode_t → Prop
  | [], [] => True
  | cell :: cells, t :: ts => ReprIn s P cell t ∧ ReprListIn s P cells ts
  | [], _ :: _ => False
  | _ :: _, [] => False
end

/-- The node `node` of storage `s` holds the tree `t`. -/
def Represents (s : ParseState) (node : xmlnode) (t : xmlnode_t) : Prop :=
  ReprIn s (fun _ => True) node t

/-- What feeding the canonical text of one tree does to a storage `s` whose
`current` points at `node`: afterwards (`s1`) `current` is back at that
node, whose children array is the new block `b` holding the former
children followed by `newnode`; the blocks of `s` other than the one
holding `node` and its former children array are untouched. -/
structure Built (s s1 : ParseState) (cur : NodePtr) (node newnode : xmlnode) (b : Nat) :
    Prop where
  current : s1.current = some cur
  deref : s1.deref cur = some ⟨node.leaves, some b, node.parent, node.name, true⟩
  fresh : s.blocks.length ≤ b
  live : b < s1.blocks.length
  block : s1.block b = some (s.kids node ++ [newnode])
  container : ∀ cells, s.block cur.block = some cells →
    s1.block cur.block = some (cells.set cur.index ⟨node.leaves, some b, node.parent, node.name, true⟩)
  frame : ∀ x, x < s.blocks.length → x ≠ cur.block → node.children ≠ some x →
    s1.block x = s.block x
  grow : s.blocks.length ≤ s1.blocks.length

/-- What feeding the canonical texts of a list of trees does to a storage
`s` whose `current` points at `node`: afterwards (`s1`) `current` is back
at that node, now `node1`, which differs from `node` in its children array
only; that array holds the former children followed by `newcells`. -/
structure BuiltList (s s1 : ParseState) (cur : NodePtr) (node node1 : xmlnode)
    (newcells : List xmlnode) : Prop where
  current : s1.current = some cur
  deref : s1.deref cur = some node1
  leaves : node1.leaves = node.leaves
  parent : node1.parent = node.parent
  name : node1.name = node.name
  initialised : node1.initialised = true
  kids : s1.kids node1 = s.kids node ++ newcells
  children : node1.children = none ↔ (node.children = none ∧ newcells = [])
  wf : ∀ b, node1.children = some b → b ≠ cur.block ∧ ∃ cells, s1.block b = some cells
  newblock : newcells ≠ [] → ∀ b, node1.children = some b → s.blocks.length ≤ b
  unchanged : newcells = [] → node1.children = node.children
  container : ∀ cells, s.block cur.block = some cells →
    s1.block cur.block = some (cells.set cur.index node1)
  frame : ∀ x, x < s.blocks.length → x ≠ cur.block → node.children ≠ some x →
    s1.block x = s.block x
  grow : s.blocks.length ≤ s1.blocks.length

/-- The storage `s1` is `s` with the node at `cur` replaced by `node1`, and
`current` points at it. -/
structure Updated (s s1 : ParseState) (cur : NodePtr) (node1 : xmlnode) : Prop where
  current : s1.current = some cur
  deref : s1.deref cur = some node1
  container : ∀ cells, s.block cur.block = some cells →
    s1.block cur.block = some (cells.set cur.index node1)
  frame : ∀ x, x ≠ cur.block → s1.block x = s.block x
  length : s1.blocks.length = s.blocks.length

/-- The canonical text of `t`, fed with zero-filled allocations in any
storage whose `current` points at an initialised node with a valid
children array, is accepted line by line and adds a node holding `t` as
the last child of that node. -/
def BuildsTree (t : xmlnode_t) : Prop :=
  ∀ (s : ParseState) (cur : NodePtr) (node : xmlnode),
    s.current = some cur → s.deref cur = some node → node.initialised = true →
    (∀ b, node.children = some b → b ≠ cur.block ∧ ∃ cells, s.block b = some cells) →
    ∃ s1 newnode b, parselines (zeroedLines (canonicalText t)) s = .ok (true, s1) ∧
      Built s s1 cur node newnode b ∧
      ReprIn s1 (fun x => b < x ∧ x < s1.blocks.length) newnode t

/-- The list version of `BuildsTree`. -/
def BuildsList (cs : List xmlnode_t) : Prop :=
  ∀ (s : ParseState) (cur : NodePtr) (node : xmlnode),
    s.current = some cur → s.deref cur = some node → node.initialised = true →
    (∀ b, node.children = some b → b ≠ cur.block ∧ ∃ cells, s.block b = some cells) →
    ∃ s1 node1 newcells, parselines (zeroedLines (canonicalTextList cs)) s = .ok (true, s1) ∧
      BuiltList s s1 cur node node1 newcells ∧
      ReprListIn s1
        (fun x => s.blocks.length ≤ x ∧ x < s1.blocks.length ∧ node1.children ≠ some x)
        newcells cs
/-! ## Lemmas on decodeleaves -/

theorem readBytes_length (buf : List UInt8) (cur n : Nat) (h : cur + n ≤ buf.length) :
    (readBytes buf cur n).length = n := by
  simp [readBytes]; omega

theorem leafSizes_nil : leafSizes [] = 0 := rfl

theorem leafSizes_cons (l : xmlleaf_t) (ls : List xmlleaf_t) :
    leafSizes (l :: ls) = l.data + leafSizes ls := by
  simp [leafSizes]

theorem leafSizes_append (xs ys : List xmlleaf_t) :
    leafSizes (xs ++ ys) = leafSizes xs + leafSizes ys := by
  simp [leafSizes]

theorem fieldsOf_length (buf : List UInt8) (ls : List xmlleaf_t) (cur : Nat) :
    (fieldsOf buf ls cur).length = ls.length := by
  induction ls generalizing cur with
  | nil => rfl
  | cons l ls ih => simp [fieldsOf, ih]

/-- The `i`-th field of a complete pass comes from the `i`-th leaf and holds
the bytes at the offset of that leaf. -/
theorem fieldsOf_getElem? (buf : List UInt8) (ls : List xmlleaf_t) (cur i : Nat) :
    (fieldsOf buf ls cur)[i]? =
      (ls[i]?).map (fun l =>
        ⟨l.data, readBytes buf (cur + leafSizes (ls.take i)) l.data, l.name, sizeofUnsigned⟩) := by
  induction ls generalizing cur i with
  | nil => simp [fieldsOf]
  | cons l ls ih =>
    cases i with
    | zero => simp [fieldsOf, leafSizes]
    | succ i =>
      simp only [fieldsOf, List.getElem?_cons_succ, List.take_succ_cons, leafSizes_cons]
      rw [ih, Nat.add_assoc]

theorem fieldsOf_names (buf : List UInt8) (ls : List xmlleaf_t) (cur : Nat) :
    (fieldsOf buf ls cur).map (·.name) = ls.map (·.name) := by
  induction ls generalizing cur with
  | nil => rfl
  | cons l ls ih => simp [fieldsOf, ih]

/-- When every leaf fits the block allocated for its field and the input
block holds the declared bytes, the loop visits every leaf. -/
theorem decodeleavesLoop_complete (buf : List UInt8) (ls : List xmlleaf_t) (cur : Nat)
    (hsize : ∀ l ∈ ls, l.data ≤ mallocUsable) (hbuf : cur + leafSizes ls ≤ buf.length) :
    decodeleavesLoop buf ls cur = .ok ⟨true, cur + leafSizes ls, fieldsOf buf ls cur⟩ := by
  induction ls generalizing cur with
  | nil => simp [decodeleavesLoop, leafSizes, fieldsOf]
  | cons l ls ih =>
    have hl : l.data ≤ mallocUsable := hsize l (by simp)
    rw [leafSizes_cons] at hbuf
    have h1 : ¬ l.data ≥ 1024 := by simp only [mallocUsable] at hl; omega
    have h2 : ¬ l.data > mallocUsable := by omega
    have h3 : ¬ cur + l.data > buf.length := by omega
    have ih2 := ih (cur + l.data) (fun q hq => hsize q (by simp [hq])) (by omega)
    simp only [decodeleavesLoop, h1, h2, h3, if_false, ih2, fieldsOf, leafSizes_cons,
      Nat.add_assoc]

/-- What a returning loop has done: it wrote the fields of a prefix of the
leaves, each within the block allocated for it and within the input block,
and stands after that prefix; it returned `true` when the prefix is the
whole list, and `false` in front of a leaf of 1024 bytes or more. -/
theorem decodeleavesLoop_ok (buf : List UInt8) (ls : List xmlleaf_t) (cur : Nat)
    (r : LeavesResult) (h : decodeleavesLoop buf ls cur = .ok r) :
    r.written.length ≤ ls.length ∧
    r.written = fieldsOf buf (ls.take r.written.length) cur ∧
    r.cursor = cur + leafSizes (ls.take r.written.length) ∧
    (∀ l ∈ ls.take r.written.length, l.data ≤ mallocUsable) ∧
    (r.written.length ≠ 0 → r.cursor ≤ buf.length) ∧
    (r.ret = true → r.written.length = ls.length) ∧
    (r.ret = false → ∃ l, ls[r.written.length]? = some l ∧ 1024 ≤ l.data) := by
  induction ls generalizing cur r with
  | nil =>
    simp only [decodeleavesLoop, Except.ok.injEq] at h
    subst h
    simp [fieldsOf, leafSizes]
  | cons l ls ih =>
    by_cases h1 : l.data ≥ 1024
    · simp only [decodeleavesLoop, h1, if_true, Except.ok.injEq] at h
      subst h
      simp [fieldsOf, leafSizes]
      exact h1
    · by_cases h2 : l.data > mallocUsable
      · simp [decodeleavesLoop, h1, h2] at h
      · by_cases h3 : cur + l.data > buf.length
        · simp [decodeleavesLoop, h1, h2, h3] at h
        · simp only [decodeleavesLoop, h1, h2, h3, if_false] at h
          cases hrec : decodeleavesLoop buf ls (cur + l.data) with
          | error e => rw [hrec] at h; cases h
          | ok r2 =>
            rw [hrec] at h
            simp only [Except.ok.injEq] at h
            subst h
            obtain ⟨a1, a2, a3, a4, a5, a6, a7⟩ := ih (cur + l.data) r2 hrec
            simp only [List.length_cons, List.take_succ_cons, fieldsOf, leafSizes_cons,
              List.getElem?_cons_succ, List.mem_cons, forall_eq_or_imp]
            refine ⟨by omega, ?_, by omega, ⟨by omega, a4⟩, ?_, ?_, a7⟩
            · rw [← a2]
            · intro _
              by_cases hz : r2.written.length = 0
              · rw [a3, hz]; simp [leafSizes]; omega
              · exact a5 hz
            · intro ht; have := a6 ht; omega

/-- A loop that returned `true` has visited every leaf. -/
theorem decodeleavesLoop_ok_true (buf : List UInt8) (ls : List xmlleaf_t) (cur : Nat)
    (r : LeavesResult) (h : decodeleavesLoop buf ls cur = .ok r) (ht : r.ret = true) :
    r = ⟨true, cur + leafSizes ls, fieldsOf buf ls cur⟩ ∧ ∀ l ∈ ls, l.data ≤ mallocUsable := by
  obtain ⟨_, a2, a3, a4, _, a6, _⟩ := decodeleavesLoop_ok buf ls cur r h
  have hlen := a6 ht
  rw [hlen, List.take_length] at a2 a3 a4
  refine ⟨?_, a4⟩
  cases r
  simp only at ht a2 a3
  subst ht a2 a3
  rfl

/-- The read pointer never moves backwards in a returning loop. -/
theorem decodeleavesLoop_cursor_ge (buf : List UInt8) (ls : List xmlleaf_t) (cur : Nat)
    (r : LeavesResult) (h : decodeleavesLoop buf ls cur = .ok r) : cur ≤ r.cursor := by
  have := (decodeleavesLoop_ok buf ls cur r h).2.2.1
  omega

/-- With every leaf within the block of its field and fewer bytes in the
input block than the leaves declare, the loop reads past the end of the
input block. -/
theorem decodeleavesLoop_readPastEnd (buf : List UInt8) (ls : List xmlleaf_t) (cur : Nat)
    (hsize : ∀ l ∈ ls, l.data ≤ mallocUsable) (hcur : cur ≤ buf.length)
    (hshort : buf.length < cur + leafSizes ls) :
    decodeleavesLoop buf ls cur = .error .readPastEnd := by
  induction ls generalizing cur with
  | nil => simp [leafSizes] at hshort; omega
  | cons l ls ih =>
    have hl : l.data ≤ mallocUsable := hsize l (by simp)
    rw [leafSizes_cons] at hshort
    have h1 : ¬ l.data ≥ 1024 := by simp only [mallocUsable] at hl; omega
    have h2 : ¬ l.data > mallocUsable := by omega
    by_cases h3 : cur + l.data > buf.length
    · simp [decodeleavesLoop, h1, h2, h3]
    · have ih2 := ih (cur + l.data) (fun q hq => hsize q (by simp [hq])) (by omega) (by omega)
      simp only [decodeleavesLoop, h1, h2, h3, if_false, ih2]

/-- A leaf of more than `mallocUsable` and fewer than 1024 bytes, reached
after leaves that were decoded, overruns the block of its field. -/
theorem decodeleavesLoop_heapOverflow (buf : List UInt8) (pre : List xmlleaf_t)
    (l : xmlleaf_t) (post : List xmlleaf_t) (cur : Nat)
    (hpre : ∀ p ∈ pre, p.data ≤ mallocUsable) (hbuf : cur + leafSizes pre ≤ buf.length)
    (hl : mallocUsable < l.data) (hl2 : l.data < 1024) :
    decodeleavesLoop buf (pre ++ l :: post) cur = .error .heapOverflow := by
  induction pre generalizing cur with
  | nil =>
    have h1 : ¬ l.data ≥ 1024 := by omega
    simp [decodeleavesLoop, h1, hl]
  | cons p pre ih =>
    have hp : p.data ≤ mallocUsable := hpre p (by simp)
    rw [leafSizes_cons] at hbuf
    have h1 : ¬ p.data ≥ 1024 := by simp only [mallocUsable] at hp; omega
    have h2 : ¬ p.data > mallocUsable := by omega
    have h3 : ¬ cur + p.data > buf.length := by omega
    have ih2 := ih (cur + p.data) (fun q hq => hpre q (by simp [hq])) (by omega)
    rw [List.cons_append]
    simp only [decodeleavesLoop, h1, h2, h3, if_false, ih2]

/-- Reading a segment that sits in the block right at the read pointer. -/
theorem readBytes_segment (pre xs post : List UInt8) (cur n : Nat)
    (hpre : pre.length = cur) (hxs : xs.length = n) :
    readBytes (pre ++ xs ++ post) cur n = xs := by
  subst hpre hxs
  simp [readBytes, List.append_assoc]

/-! ## Lemmas on the lookups, the header scan and the closing loop -/

theorem findchild_none_iff (name : String) (cs : List xmlnode_t) :
    findchild name cs = none ↔ ∀ c ∈ cs, c.name ≠ name := by
  induction cs with
  | nil => simp [findchild]
  | cons c cs ih =>
    by_cases h : c.name = name
    · simp [findchild, h]
    · simp [findchild, h, ih]

/-- What a returning scan step did to the flags. -/
theorem scanStep_flags (s t : HeaderScan) (f : data_t) (h : scanStep s f = .ok t) :
    (t.has_error_flag = true ↔ s.has_error_flag = true ∨ f.name = "errorflag") ∧
    (t.has_message_format_ID = true ↔
      s.has_message_format_ID = true ∨ f.name = "messageformatID") ∧
    (f.name ≠ "errorflag" → t.error_flag = s.error_flag) ∧
    (f.name = "messageformatID" ∨ f.name = "errorflag" → f.size ≤ sizeofUnsigned) := by
  unfold scanStep memcpyUnsigned at h
  by_cases h1 : f.name = "messageformatID"
  · have h2 : f.name ≠ "errorflag" := by rw [h1]; decide
    rw [if_pos h1] at h
    by_cases hs : f.size > sizeofUnsigned
    · rw [if_pos hs] at h; cases h
    · rw [if_neg hs] at h
      simp only [Except.ok.injEq] at h
      subst h
      simp [h1]; omega
  · rw [if_neg h1] at h
    by_cases h2 : f.name = "errorflag"
    · rw [if_pos h2] at h
      by_cases hs : f.size > sizeofUnsigned
      · rw [if_pos hs] at h; cases h
      · rw [if_neg hs] at h
        simp only [Except.ok.injEq] at h
        subst h
        simp [h1, h2]; omega
    · rw [if_neg h2] at h
      simp only [Except.ok.injEq] at h
      subst h
      simp [h1, h2]

/-- A returning scan found every slot written, and its flags tell which
names it met. -/
theorem scanLoop_ok (n : Nat) (fs : List data_t) (s t : HeaderScan)
    (h : scanLoop n fs s = .ok t) :
    n ≤ fs.length ∧
    (t.has_error_flag = true ↔
      s.has_error_flag = true ∨ ∃ f ∈ fs.take n, f.name = "errorflag") ∧
    (t.has_message_format_ID = true ↔
      s.has_message_format_ID = true ∨ ∃ f ∈ fs.take n, f.name = "messageformatID") ∧
    ((∀ f ∈ fs.take n, f.name ≠ "errorflag") → t.error_flag = s.error_flag) := by
  induction n generalizing fs s with
  | zero =>
    simp only [scanLoop, Except.ok.injEq] at h
    subst h
    simp
  | succ n ih =>
    cases fs with
    | nil => simp [scanLoop] at h
    | cons f fs =>
      simp only [scanLoop] at h
      cases hst : scanStep s f with
      | error e => rw [hst] at h; cases h
      | ok s1 =>
        rw [hst] at h
        obtain ⟨b1, b2, b3, _⟩ := scanStep_flags s s1 f hst
        obtain ⟨a1, a2, a3, a4⟩ := ih fs s1 h
        simp only [List.length_cons, List.take_succ_cons, List.mem_cons, exists_eq_or_imp,
          forall_eq_or_imp]
        refine ⟨by omega, ?_, ?_, ?_⟩
        · rw [a2, b1, or_assoc]
        · rw [a3, b2, or_assoc]
        · rintro ⟨hf, hrest⟩
          rw [a4 hrest, b3 hf]

/-- How `decodemessage` continues once the `headerformat` child is found. -/
theorem decodemessage_of_header (leaves : List xmlleaf_t) (children : List xmlnode_t)
    (buf : List UInt8) (cur hi : Nat) (header : xmlnode_t)
    (hfind : findchild "headerformat" children = some hi)
    (hhdr : children[hi]? = some header) :
    decodemessage (some (.mk leaves children "messageformats")) buf cur =
      match decodeleaves header buf cur with
      | .error e => .error e
      | .ok h =>
        match scanheader header.nleaves h.written with
        | .error e => .error e
        | .ok s =>
          if s.has_error_flag = false ∨ s.error_flag > 0 then
            .ok ⟨false, h.cursor, h.written, none, []⟩
          else
            match findchild (bodyformat s.message_format_ID) children with
            | none => .ok ⟨false, h.cursor, h.written, none, []⟩
            | some bi =>
              match decodeleaves (children.getD bi (.mk [] [] "")) buf h.cursor with
              | .error e => .error e
              | .ok b =>
                match closingLoop (children.getD bi (.mk [] [] "")).nleaves 0 b.written with
                | .error e => .error e
                | .ok _ => .ok ⟨true, b.cursor, h.written, some bi, b.written⟩ := by
  have hget : children.getD hi (.mk [] [] "") = header := by
    simp [List.getD_eq_getElem?_getD, hhdr]
  simp only [decodemessage, xmlnode_t.name, xmlnode_t.children, hfind, hget, ne_eq,
    not_true_eq_false, if_false]

/-- A returning header scan in `decodemessage` has seen every header leaf:
the header decode was complete, and the flags tell which names occur. -/
theorem scanheader_flags (header : xmlnode_t) (buf : List UInt8) (cur : Nat)
    (h : LeavesResult) (s : HeaderScan)
    (hdec : decodeleaves header buf cur = .ok h)
    (hscan : scanheader header.nleaves h.written = .ok s) :
    h = ⟨true, cur + leafSizes header.leaves, fieldsOf buf header.leaves cur⟩ ∧
    (s.has_error_flag = true ↔ ∃ l ∈ header.leaves, l.name = "errorflag") ∧
    (s.has_message_format_ID = true ↔ ∃ l ∈ header.leaves, l.name = "messageformatID") ∧
    ((∀ l ∈ header.leaves, l.name ≠ "errorflag") → s.error_flag = 0) := by
  obtain ⟨c1, c2, c3, c4⟩ := scanLoop_ok _ _ _ _ hscan
  obtain ⟨a1, a2, a3, _, _, _, _⟩ := decodeleavesLoop_ok buf header.leaves cur h hdec
  have hlen : h.written.length = header.leaves.length := by
    unfold xmlnode_t.nleaves at c1; omega
  rw [hlen, List.take_length] at a2 a3
  have htake : h.written.take header.nleaves = h.written := by
    rw [List.take_of_length_le]; unfold xmlnode_t.nleaves; omega
  rw [htake] at c2 c3 c4
  have hmem : ∀ nm : String,
      (∃ f ∈ h.written, f.name = nm) ↔ (∃ l ∈ header.leaves, l.name = nm) := by
    intro nm
    have h1 : (∃ f ∈ h.written, f.name = nm) ↔ nm ∈ h.written.map (·.name) := by
      simp [List.mem_map]
    have h2 : (∃ l ∈ header.leaves, l.name = nm) ↔ nm ∈ header.leaves.map (·.name) := by
      simp [List.mem_map]
    rw [h1, h2, a2, fieldsOf_names]
  refine ⟨?_, ?_, ?_, ?_⟩
  · have hret : h.ret = true := by
      cases hr : h.ret with
      | true => rfl
      | false =>
        obtain ⟨l, hl, _⟩ := (decodeleavesLoop_ok buf header.leaves cur h hdec).2.2.2.2.2.2 hr
        rw [hlen, List.getElem?_eq_none (Nat.le_refl _)] at hl
        cases hl
    exact (decodeleavesLoop_ok_true buf header.leaves cur h hdec hret).1
  · rw [c2, hmem]; simp
  · rw [c3, hmem]; simp
  · intro habs
    rw [c4]
    intro f hf hn
    obtain ⟨l, hl, hln⟩ := (hmem "errorflag").1 ⟨f, hf, hn⟩
    exact habs l hl hln

/-- With every leaf below the ceiling, the declared bytes in the input
block and some leaf wider than the block allocated for its field, the loop
overruns that block. -/
theorem decodeleavesLoop_overflow (buf : List UInt8) (ls : List xmlleaf_t) (cur : Nat)
    (hsize : ∀ l ∈ ls, l.data < 1024) (hbuf : cur + leafSizes ls ≤ buf.length)
    (hex : ∃ l ∈ ls, mallocUsable < l.data) :
    decodeleavesLoop buf ls cur = .error .heapOverflow := by
  induction ls generalizing cur with
  | nil => simp at hex
  | cons p ps ih =>
    have h1 : ¬ p.data ≥ 1024 := by have := hsize p (by simp); omega
    rw [leafSizes_cons] at hbuf
    by_cases h2 : p.data > mallocUsable
    · simp [decodeleavesLoop, h1, h2]
    · have h3 : ¬ cur + p.data > buf.length := by omega
      have hex2 : ∃ l ∈ ps, mallocUsable < l.data := by
        obtain ⟨l, hl, hbig⟩ := hex
        rcases List.mem_cons.1 hl with rfl | hl2
        · exact absurd hbig h2
        · exact ⟨l, hl2, hbig⟩
      have ih2 := ih (cur + p.data) (fun q hq => hsize q (by simp [hq])) (by omega) hex2
      simp only [decodeleavesLoop, h1, h2, h3, if_false, ih2]

/-- The way of `decodemessage` from the error-flag test on, with a complete header
decode and a returning scan. -/
theorem decodemessage_of_scan (leaves : List xmlleaf_t) (children : List xmlnode_t)
    (buf : List UInt8) (cur hi : Nat) (header : xmlnode_t) (s : HeaderScan)
    (hfind : findchild "headerformat" children = some hi)
    (hhdr : children[hi]? = some header)
    (hdec : decodeleaves header buf cur =
      .ok ⟨true, cur + leafSizes header.leaves, fieldsOf buf header.leaves cur⟩)
    (hscan : scanheader header.nleaves (fieldsOf buf header.leaves cur) = .ok s) :
    decodemessage (some (.mk leaves children "messageformats")) buf cur =
      if s.has_error_flag = false ∨ s.error_flag > 0 then
        .ok ⟨false, cur + leafSizes header.leaves, fieldsOf buf header.leaves cur, none, []⟩
      else
        match findchild (bodyformat s.message_format_ID) children with
        | none =>
          .ok ⟨false, cur + leafSizes header.leaves, fieldsOf buf header.leaves cur, none, []⟩
        | some bi =>
          match decodeleaves (children.getD bi (.mk [] [] "")) buf
              (cur + leafSizes header.leaves) with
          | .error e => .error e
          | .ok b =>
            match closingLoop (children.getD bi (.mk [] [] "")).nleaves 0 b.written with
            | .error e => .error e
            | .ok _ => .ok ⟨true, b.cursor, fieldsOf buf header.leaves cur, some bi, b.written⟩ := by
  rw [decodemessage_of_header leaves children buf cur hi header hfind hhdr, hdec]
  dsimp only
  rw [hscan]

/-! ## Claims on decodeleaves -/

/-- C3, the claim against the code: take a node whose leaves all declare
fewer than 1024 bytes and an input block holding the declared bytes from
the read pointer on.  When every leaf declares at most `mallocUsable`
bytes, `decodeleaves` returns `true` with exactly one field per leaf, in
leaf order, the `i`-th with the name and size of the `i`-th leaf and, as
payload, exactly that many bytes of the block at the offset `cur +` (sum
of the sizes of the leaves before it).  When some leaf declares more, the
`memcpy` of its payload overruns the block `malloc(sizeof(leaf->data))`
returned, and `decodeleaves` has no defined result. -/
theorem decodeleaves_content (node : xmlnode_t) (buf : List UInt8) (cur : Nat)
    (hsize : ∀ l ∈ node.leaves, l.data < 1024)
    (hbuf : cur + leafSizes node.leaves ≤ buf.length) :
    ((∀ l ∈ node.leaves, l.data ≤ mallocUsable) →
      ∃ r, decodeleaves node buf cur = .ok r ∧ r.ret = true ∧
        r.written.length = node.nleaves ∧
        ∀ (i : Nat) (l : xmlleaf_t), node.leaves[i]? = some l →
          ∃ f : data_t, r.written[i]? = some f ∧
            f.name = l.name ∧ f.size = l.data ∧ f.data.length = l.data ∧
            f.data = (buf.drop (cur + leafSizes (node.leaves.take i))).take l.data) ∧
    ((∃ l ∈ node.leaves, mallocUsable < l.data) →
      decodeleaves node buf cur = .error .heapOverflow) := by
  constructor
  · intro hsmall
    refine ⟨_, decodeleavesLoop_complete buf node.leaves cur hsmall hbuf, rfl, ?_, ?_⟩
    · exact fieldsOf_length _ _ _
    · intro i l hil
      have hi : i < node.leaves.length := by
        rcases Nat.lt_or_ge i node.leaves.length with h | h
        · exact h
        · rw [List.getElem?_eq_none h] at hil; cases hil
      have hsplit : leafSizes node.leaves =
          leafSizes (node.leaves.take i) + leafSizes (node.leaves.drop i) := by
        rw [← leafSizes_append, List.take_append_drop]
      have hdrop : node.leaves.drop i = l :: node.leaves.drop (i + 1) := by
        rw [List.drop_eq_getElem_cons hi]
        congr 1
        rw [List.getElem?_eq_getElem hi] at hil
        exact Option.some.inj hil
      rw [hdrop, leafSizes_cons] at hsplit
      refine ⟨_, by rw [fieldsOf_getElem?, hil]; rfl, rfl, rfl, ?_, rfl⟩
      exact readBytes_length _ _ _ (by omega)
  · intro hex
    exact decodeleavesLoop_overflow buf node.leaves cur hsize hbuf hex

/-- Witness for C3: the body node of the reference scenario against the
buffer of `writemessage`, where the claim holds; and the failing input,
leaves `x: 25, y: 2`, both below 1024, against a block of 27 bytes. -/
theorem decodeleaves_content_witness :
    (∃ r, decodeleaves (.mk [⟨16, "x"⟩, ⟨2, "y"⟩, ⟨2, "z"⟩] [] "bodyformat1") writemessage 2 =
        .ok r ∧ r.ret = true ∧
      r.written.length = (xmlnode_t.mk [⟨16, "x"⟩, ⟨2, "y"⟩, ⟨2, "z"⟩] [] "bodyformat1").nleaves ∧
      ∀ (i : Nat) (l : xmlleaf_t),
        (xmlnode_t.mk [⟨16, "x"⟩, ⟨2, "y"⟩, ⟨2, "z"⟩] [] "bodyformat1").leaves[i]? = some l →
        ∃ f : data_t, r.written[i]? = some f ∧
          f.name = l.name ∧ f.size = l.data ∧ f.data.length = l.data ∧
          f.data = (writemessage.drop (2 + leafSizes
            ((xmlnode_t.mk [⟨16, "x"⟩, ⟨2, "y"⟩, ⟨2, "z"⟩] [] "bodyformat1").leaves.take i))).take
              l.data) ∧
    decodeleaves (.mk [⟨25, "x"⟩, ⟨2, "y"⟩] [] "n") (List.replicate 27 7) 0 =
      .error .heapOverflow :=
  ⟨(decodeleaves_content (.mk [⟨16, "x"⟩, ⟨2, "y"⟩, ⟨2, "z"⟩] [] "bodyformat1") writemessage 2
      (by decide) (by decide)).1 (by decide),
   (decodeleaves_content (.mk [⟨25, "x"⟩, ⟨2, "y"⟩] [] "n") (List.replicate 27 7) 0
      (by decide) (by decide)).2 ⟨⟨25, "x"⟩, by decide, by decide⟩⟩

/-- C5, at the failing inputs: with leaves `x: 100, y: 2, z: 2000` the
claim has `decodeleaves` return `false` at `z` after two fields; the copy
of the 100 bytes of `x` overruns the block allocated for the field before
`z` is looked at.  A single leaf of 1023 bytes, accepted according to the
claim, overruns its block the same way.  What is left of the claim:
whenever `decodeleaves` returns, it returns `false` exactly when some leaf
declares 1024 bytes or more, and then the slots written are those of the
leaves before the first such leaf and the read pointer stands after them;
a leaf of 1024 or of 2000 bytes met first is rejected. -/
theorem decodeleaves_oversized :
    decodeleaves (.mk [⟨100, "x"⟩, ⟨2, "y"⟩, ⟨2000, "z"⟩] [] "n") (List.replicate 102 7) 0 =
      .error .heapOverflow ∧
    decodeleaves (.mk [⟨1023, "x"⟩] [] "n") (List.replicate 1023 7) 0 = .error .heapOverflow ∧
    (∀ (node : xmlnode_t) (buf : List UInt8) (cur : Nat) (r : LeavesResult),
      decodeleaves node buf cur = .ok r →
        (r.ret = false ↔ ∃ l ∈ node.leaves, 1024 ≤ l.data) ∧
        (r.ret = false →
          (∃ l, node.leaves[r.written.length]? = some l ∧ 1024 ≤ l.data) ∧
          (∀ p ∈ node.leaves.take r.written.length, p.data < 1024) ∧
          r.written = fieldsOf buf (node.leaves.take r.written.length) cur ∧
          r.cursor = cur + leafSizes (node.leaves.take r.written.length))) ∧
    (∀ (nm n : String) (rest : List xmlleaf_t) (buf : List UInt8) (cur : Nat),
      decodeleaves (.mk (⟨1024, nm⟩ :: rest) [] n) buf cur = .ok ⟨false, cur, []⟩ ∧
      decodeleaves (.mk (⟨2000, nm⟩ :: rest) [] n) buf cur = .ok ⟨false, cur, []⟩) := by
  refine ⟨rfl, rfl, ?_, ?_⟩
  · intro node buf cur r h
    obtain ⟨a1, a2, a3, a4, _, a6, a7⟩ := decodeleavesLoop_ok buf node.leaves cur r h
    constructor
    · constructor
      · intro hf
        obtain ⟨l, hl, hbig⟩ := a7 hf
        exact ⟨l, List.getElem?_mem hl, hbig⟩
      · rintro ⟨l, hl, hbig⟩
        cases hr : r.ret with
        | false => rfl
        | true =>
          have := (decodeleavesLoop_ok_true buf node.leaves cur r h hr).2 l hl
          simp only [mallocUsable] at this
          omega
    · intro hf
      refine ⟨a7 hf, ?_, a2, a3⟩
      intro p hp
      have := a4 p hp
      simp only [mallocUsable] at this
      omega
  · intro nm n rest buf cur
    simp [decodeleaves, decodeleavesLoop, xmlnode_t.leaves]

/-- A returning `decodemessage` on a root with a `headerformat` child holds
the complete header decode and stands at or after the end of the header. -/
theorem decodemessage_ok_header (leaves : List xmlleaf_t) (children : List xmlnode_t)
    (buf : List UInt8) (cur hi : Nat) (header : xmlnode_t) (st : DecodeState)
    (hfind : findchild "headerformat" children = some hi)
    (hhdr : children[hi]? = some header)
    (h : decodemessage (some (.mk leaves children "messageformats")) buf cur = .ok st) :
    st.header_data = fieldsOf buf header.leaves cur ∧
    cur + leafSizes header.leaves ≤ st.cursor ∧
    decodeleaves header buf cur =
      .ok ⟨true, cur + leafSizes header.leaves, fieldsOf buf header.leaves cur⟩ ∧
    ∃ s, scanheader header.nleaves (fieldsOf buf header.leaves cur) = .ok s ∧
      (st.ret = false → st.cursor = cur + leafSizes header.leaves ∧ st.body = none ∧
        st.body_data = [] ∧
        (s.has_error_flag = false ∨ s.error_flag > 0 ∨
          findchild (bodyformat s.message_format_ID) children = none)) := by
  rw [decodemessage_of_header leaves children buf cur hi header hfind hhdr] at h
  cases hdec : decodeleaves header buf cur with
  | error e => rw [hdec] at h; cases h
  | ok hr =>
    rw [hdec] at h
    dsimp only at h
    cases hscan : scanheader header.nleaves hr.written with
    | error e => rw [hscan] at h; cases h
    | ok s =>
      rw [hscan] at h
      dsimp only at h
      obtain ⟨hh, _⟩ := scanheader_flags header buf cur hr s hdec hscan
      subst hh
      by_cases hgate : s.has_error_flag = false ∨ s.error_flag > 0
      · rw [if_pos hgate] at h
        cases h
        refine ⟨rfl, Nat.le_refl _, rfl, s, hscan, fun _ => ⟨rfl, rfl, rfl, ?_⟩⟩
        rcases hgate with hg | hg
        · exact Or.inl hg
        · exact Or.inr (Or.inl hg)
      · rw [if_neg hgate] at h
        cases hfb : findchild (bodyformat s.message_format_ID) children with
        | none =>
          rw [hfb] at h
          cases h
          exact ⟨rfl, Nat.le_refl _, rfl, s, hscan, fun _ => ⟨rfl, rfl, rfl, Or.inr (Or.inr hfb)⟩⟩
        | some bi =>
          rw [hfb] at h
          dsimp only at h
          cases hbd : decodeleaves (children.getD bi (.mk [] [] "")) buf
              (cur + leafSizes header.leaves) with
          | error e => rw [hbd] at h; cases h
          | ok b =>
            rw [hbd] at h
            dsimp only at h
            cases hcl : closingLoop (children.getD bi (.mk [] [] "")).nleaves 0 b.written with
            | error e => rw [hcl] at h; cases h
            | ok u =>
              rw [hcl] at h
              cases h
              have := decodeleavesLoop_cursor_ge buf _ _ b hbd
              exact ⟨rfl, this, rfl, s, hscan, fun hf => by cases hf⟩

/-- C6, refuted as stated.  A message of two bytes, stored in the block of
`main`, against a leaf declaring four: `decodeleaves` returns `true`,
writes the field (the two message bytes and the two bytes of the block
after them) and leaves the read pointer at offset 4, past the end of the
message.  A message of three bytes against a header declaring six:
`decodemessage` returns `true` and holds the three header fields. -/
theorem decodeleaves_underrun_counterexample :
    decodeleaves (.mk [⟨4, "x"⟩] [] "n") (input_buffer [1, 2]) 0 =
      .ok ⟨true, 4, [⟨4, [1, 2, 0, 0], "x", 4⟩]⟩ ∧
    decodemessage (some (.mk []
        [ .mk [⟨1, "messageformatID"⟩, ⟨1, "errorflag"⟩, ⟨4, "pad"⟩] [] "headerformat",
          .mk [] [] "bodyformat1" ] "messageformats")) (input_buffer [1, 0, 9]) 0 =
      .ok ⟨true, 6, [⟨1, [1], "messageformatID", 4⟩, ⟨1, [0], "errorflag", 4⟩,
                     ⟨4, [9, 0, 0, 0], "pad", 4⟩], some 1, []⟩ := by
  have hlen : ∀ msg : List UInt8, msg.length ≤ 1024 → (input_buffer msg).length = 1024 := by
    intro msg hm
    simp [input_buffer]
    omega
  constructor
  · exact decodeleavesLoop_complete (input_buffer [1, 2]) [⟨4, "x"⟩] 0 (by decide)
      (by rw [hlen _ (by decide)]; decide)
  · have hdec := decodeleavesLoop_complete (input_buffer [1, 0, 9])
      [⟨1, "messageformatID"⟩, ⟨1, "errorflag"⟩, ⟨4, "pad"⟩] 0 (by decide)
      (by rw [hlen _ (by decide)]; decide)
    exact (decodemessage_of_scan []
      [ .mk [⟨1, "messageformatID"⟩, ⟨1, "errorflag"⟩, ⟨4, "pad"⟩] [] "headerformat",
        .mk [] [] "bodyformat1" ] (input_buffer [1, 0, 9]) 0 0
      (.mk [⟨1, "messageformatID"⟩, ⟨1, "errorflag"⟩, ⟨4, "pad"⟩] [] "headerformat")
      ⟨1, true, 0, true⟩ rfl rfl hdec rfl).trans rfl

/-- C6, amended: `decodeleaves` is given no length and never compares the
bytes left with a declared size.  Take a node whose leaves each declare at
most `mallocUsable` bytes and a message `msg`, stored at the start of a
block `msg ++ tail`, that is shorter than what the node declares from the
read pointer on.  When the block holds the declared bytes, `decodeleaves`
returns `true` with one field per leaf and the read pointer past the end
of the message; when it does not, `decodeleaves` reads past the end of the
block and has no defined result, so it returns no failure either.  When
the node is the `headerformat` child of a root, a returning
`decodemessage` holds one header field per header leaf and a read pointer
past the end of the message. -/
theorem decodeleaves_underrun (node : xmlnode_t) (msg tail : List UInt8) (cur : Nat)
    (hsize : ∀ l ∈ node.leaves, l.data ≤ mallocUsable)
    (hcur : cur ≤ (msg ++ tail).length)
    (hshort : msg.length < cur + leafSizes node.leaves) :
    (cur + leafSizes node.leaves ≤ (msg ++ tail).length →
      ∃ r, decodeleaves node (msg ++ tail) cur = .ok r ∧ r.ret = true ∧
        r.written = fieldsOf (msg ++ tail) node.leaves cur ∧
        r.written.length = node.nleaves ∧ msg.length < r.cursor) ∧
    ((msg ++ tail).length < cur + leafSizes node.leaves →
      decodeleaves node (msg ++ tail) cur = .error .readPastEnd) ∧
    (∀ (leaves : List xmlleaf_t) (children : List xmlnode_t) (hi : Nat) (st : DecodeState),
      findchild "headerformat" children = some hi → children[hi]? = some node →
      decodemessage (some (.mk leaves children "messageformats")) (msg ++ tail) cur = .ok st →
        st.header_data.length = node.nleaves ∧ msg.length < st.cursor) := by
  refine ⟨?_, ?_, ?_⟩
  · intro hbuf
    exact ⟨_, decodeleavesLoop_complete _ node.leaves cur hsize hbuf, rfl, rfl,
      fieldsOf_length _ _ _, hshort⟩
  · intro hblock
    exact decodeleavesLoop_readPastEnd _ node.leaves cur hsize hcur hblock
  · intro leaves children hi st hfind hhdr hst
    obtain ⟨h1, h2, _⟩ := decodemessage_ok_header leaves children _ cur hi node st hfind hhdr hst
    refine ⟨?_, by omega⟩
    rw [h1]
    exact fieldsOf_length _ _ _

/-- Witness for the amended C6: a four-byte leaf against a two-byte message,
in a block of four bytes and in a block of two. -/
theorem decodeleaves_underrun_witness :
    (∃ r, decodeleaves (.mk [⟨4, "x"⟩] [] "n") ([1, 2] ++ [8, 9]) 0 = .ok r ∧ r.ret = true ∧
      r.written = fieldsOf ([1, 2] ++ [8, 9]) [⟨4, "x"⟩] 0 ∧
      r.written.length = 1 ∧ ([1, 2] : List UInt8).length < r.cursor) ∧
    decodeleaves (.mk [⟨4, "x"⟩] [] "n") ([1, 2] ++ []) 0 = .error .readPastEnd :=
  ⟨(decodeleaves_underrun (.mk [⟨4, "x"⟩] [] "n") [1, 2] [8, 9] 0 (by decide) (by decide)
      (by decide)).1 (by decide),
   (decodeleaves_underrun (.mk [⟨4, "x"⟩] [] "n") [1, 2] [] 0 (by decide) (by decide)
      (by decide)).2.1 (by decide)⟩

/-! ## Claims on decodemessage -/

/-- C2, at the failing input: the header declares `messageformatID: 1,
errorflag: 8` and the eight bytes of the error flag are
`00 00 00 00 02 00 00 00`, a nonzero payload.  `decodeleaves` decodes the
header, and the scan copies the eight bytes over the four-byte variable
`error_flag` (`memcpy(&error_flag, header_data[i].data, 8)`): the copy
overwrites the variables next to it and `decodemessage` has no defined
result; it does not return `false`. -/
theorem decodemessage_error_gate :
    decodeleaves (.mk [⟨1, "messageformatID"⟩, ⟨8, "errorflag"⟩] [] "headerformat")
        [1, 0, 0, 0, 0, 2, 0, 0, 0, 7, 7, 7] 0 =
      .ok ⟨true, 9, [⟨1, [1], "messageformatID", 4⟩,
                     ⟨8, [0, 0, 0, 0, 2, 0, 0, 0], "errorflag", 4⟩]⟩ ∧
    ([0, 0, 0, 0, 2, 0, 0, 0] : List UInt8) ≠ List.replicate 8 0 ∧
    scanheader 2 [⟨1, [1], "messageformatID", 4⟩,
                  ⟨8, [0, 0, 0, 0, 2, 0, 0, 0], "errorflag", 4⟩] = .error .stackOverwrite ∧
    decodemessage (some (.mk []
        [ .mk [⟨1, "messageformatID"⟩, ⟨8, "errorflag"⟩] [] "headerformat",
          .mk [⟨1, "x"⟩] [] "bodyformat1",
          .mk [⟨3, "x"⟩] [] "bodyformat2" ] "messageformats"))
        [1, 0, 0, 0, 0, 2, 0, 0, 0, 7, 7, 7] 0 = .error .stackOverwrite :=
  ⟨rfl, by decide, rfl, rfl⟩

/-- C7, at the failing input and beyond: when no direct child of the root is
named `headerformat` the lookup leaves `header` at `NULL`, and
`decodemessage` dereferences it (`header->nleaves`) instead of returning
`false`; the lookup of `body` is followed by a `NULL` check, this one is
not. -/
theorem decodemessage_missing_header (leaves : List xmlleaf_t) (children : List xmlnode_t)
    (buf : List UInt8) (cur : Nat)
    (h : ∀ c ∈ children, c.name ≠ "headerformat") :
    decodemessage (some (.mk leaves children "messageformats")) buf cur =
      .error .nullHeader := by
  have hf := (findchild_none_iff "headerformat" children).2 h
  simp [decodemessage, xmlnode_t.name, xmlnode_t.children, hf]

/-- Witness for C7: a root without children. -/
theorem decodemessage_missing_header_witness :
    decodemessage (some (.mk [] [] "messageformats")) [1, 0] 0 = .error .nullHeader :=
  decodemessage_missing_header [] [] [1, 0] 0 (by simp)

/-- C8, at the failing input: the header has an `errorflag` leaf and no
`messageformatID` leaf, the error flag byte is `0`, and the root has a
child `bodyformat0`.  The scan leaves `has_message_format_ID` at `false`
and `message_format_ID` at `0`; `decodemessage` goes on, picks
`bodyformat0`, decodes it and returns `true`. -/
theorem decodemessage_missing_discriminant :
    decodeleaves (.mk [⟨1, "errorflag"⟩] [] "headerformat") [0, 5, 6] 0 =
      .ok ⟨true, 1, [⟨1, [0], "errorflag", 4⟩]⟩ ∧
    scanheader 1 [⟨1, [0], "errorflag", 4⟩] = .ok ⟨0, false, 0, true⟩ ∧
    decodemessage (some (.mk []
        [ .mk [⟨1, "errorflag"⟩] [] "headerformat",
          .mk [⟨2, "x"⟩] [] "bodyformat0" ] "messageformats")) [0, 5, 6] 0 =
      .ok ⟨true, 3, [⟨1, [0], "errorflag", 4⟩], some 1, [⟨2, [5, 6], "x", 4⟩]⟩ :=
  ⟨rfl, rfl, rfl⟩

/-- C9, at the failing input: the selected body node has a leaf of 2000
bytes.  `decodeleaves` returns `false` on it without writing a slot;
`decodemessage` does not look at the returned flag, goes on to its closing
loop over the `body->nleaves` slots and reads the slot that was never
written: it has no defined result and does not return `false`.  With the
oversized leaf in the header instead, `decodeleaves` returns `false` after
two fields and the header scan reads the third slot, never written. -/
theorem decodemessage_ignores_leaf_failure :
    decodeleaves (.mk [⟨2000, "x"⟩] [] "bodyformat1") [1, 0] 2 = .ok ⟨false, 2, []⟩ ∧
    decodemessage (some (.mk []
        [ .mk [⟨1, "messageformatID"⟩, ⟨1, "errorflag"⟩] [] "headerformat",
          .mk [⟨2000, "x"⟩] [] "bodyformat1" ] "messageformats")) [1, 0] 0 =
      .error .unwrittenSlot ∧
    decodeleaves (.mk [⟨1, "messageformatID"⟩, ⟨1, "errorflag"⟩, ⟨1024, "big"⟩] []
        "headerformat") [1, 0] 0 =
      .ok ⟨false, 2, [⟨1, [1], "messageformatID", 4⟩, ⟨1, [0], "errorflag", 4⟩]⟩ ∧
    decodemessage (some (.mk []
        [ .mk [⟨1, "messageformatID"⟩, ⟨1, "errorflag"⟩, ⟨1024, "big"⟩] [] "headerformat",
          .mk [] [] "bodyformat1" ] "messageformats")) [1, 0] 0 =
      .error .unwrittenSlot :=
  ⟨rfl, rfl, rfl, rfl⟩

/-- C10, refuted as stated: on the buffer `writemessage` produces, the
reference schema decodes successfully and the read pointer ends at offset
22 (two header bytes and twenty body bytes), not at 20. -/
theorem decodemessage_reference_counterexample :
    ∃ st, decodemessage (some referenceSchema) writemessage 0 = .ok st ∧
      st.ret = true ∧ st.cursor = 22 ∧ st.cursor ≠ 20 :=
  ⟨_, rfl, rfl, rfl, by decide⟩

/-- C10, amended: with the reference schema and any buffer that starts with
`0x01, 0x00`, sixteen bytes `xs`, two bytes `ys` and two bytes `zs`,
`decodemessage` returns `true`; the header scan reads message format ID 1
and error flag 0; the body chosen is `bodyformat1` (child 1); the body
fields are `x` (the 16 bytes `xs`), `y` (`ys`) and `z` (`zs`) in that
order; and the read pointer ends at offset 22. -/
theorem decodemessage_reference (xs ys zs rest : List UInt8)
    (hx : xs.length = 16) (hy : ys.length = 2) (hz : zs.length = 2) :
    (decodeleaves (.mk [⟨1, "messageformatID"⟩, ⟨1, "errorflag"⟩] [] "headerformat")
        ([0x01, 0x00] ++ xs ++ ys ++ zs ++ rest) 0 =
      .ok ⟨true, 2, [⟨1, [1], "messageformatID", 4⟩, ⟨1, [0], "errorflag", 4⟩]⟩ ∧
     scanheader 2 [⟨1, [1], "messageformatID", 4⟩, ⟨1, [0], "errorflag", 4⟩] =
      .ok ⟨1, true, 0, true⟩) ∧
    (∃ body, referenceSchema.children[1]? = some body ∧ body.name = "bodyformat1") ∧
    decodemessage (some referenceSchema) ([0x01, 0x00] ++ xs ++ ys ++ zs ++ rest) 0 =
      .ok ⟨true, 22, [⟨1, [1], "messageformatID", 4⟩, ⟨1, [0], "errorflag", 4⟩], some 1,
           [⟨16, xs, "x", 4⟩, ⟨2, ys, "y", 4⟩, ⟨2, zs, "z", 4⟩]⟩ := by
  have hlen : ([0x01, 0x00] ++ xs ++ ys ++ zs ++ rest).length = 22 + rest.length := by
    simp [hx, hy, hz]
    omega
  have e0 : readBytes ([0x01, 0x00] ++ xs ++ ys ++ zs ++ rest) 0 1 = [1] := by
    have := readBytes_segment [] [1] ([0] ++ xs ++ ys ++ zs ++ rest) 0 1 rfl rfl
    simpa using this
  have e1 : readBytes ([0x01, 0x00] ++ xs ++ ys ++ zs ++ rest) (0 + 1) 1 = [0] := by
    have := readBytes_segment [1] [0] (xs ++ ys ++ zs ++ rest) 1 1 rfl rfl
    simpa using this
  have e2 : readBytes ([0x01, 0x00] ++ xs ++ ys ++ zs ++ rest) (0 + 2) 16 = xs := by
    have := readBytes_segment [1, 0] xs (ys ++ zs ++ rest) 2 16 rfl hx
    simpa using this
  have e3 : readBytes ([0x01, 0x00] ++ xs ++ ys ++ zs ++ rest) (0 + 2 + 16) 2 = ys := by
    have := readBytes_segment ([1, 0] ++ xs) ys (zs ++ rest) 18 2 (by simp [hx]) hy
    simpa using this
  have e4 : readBytes ([0x01, 0x00] ++ xs ++ ys ++ zs ++ rest) (0 + 2 + 16 + 2) 2 = zs := by
    have := readBytes_segment ([1, 0] ++ xs ++ ys) zs rest 20 2 (by simp [hx, hy]) hz
    simpa using this
  have hh : decodeleaves (.mk [⟨1, "messageformatID"⟩, ⟨1, "errorflag"⟩] [] "headerformat")
      ([0x01, 0x00] ++ xs ++ ys ++ zs ++ rest) 0 =
      .ok ⟨true, 2, [⟨1, [1], "messageformatID", 4⟩, ⟨1, [0], "errorflag", 4⟩]⟩ := by
    have h := decodeleavesLoop_complete ([0x01, 0x00] ++ xs ++ ys ++ zs ++ rest)
      [⟨1, "messageformatID"⟩, ⟨1, "errorflag"⟩] 0 (by decide)
      (by rw [hlen]; simp [leafSizes]; omega)
    unfold decodeleaves
    rw [xmlnode_t.leaves, h]
    simp only [fieldsOf, e0, e1, sizeofUnsigned]
    rfl
  have hb : decodeleaves (.mk [⟨16, "x"⟩, ⟨2, "y"⟩, ⟨2, "z"⟩] [] "bodyformat1")
      ([0x01, 0x00] ++ xs ++ ys ++ zs ++ rest) (0 + 2) =
      .ok ⟨true, 22, [⟨16, xs, "x", 4⟩, ⟨2, ys, "y", 4⟩, ⟨2, zs, "z", 4⟩]⟩ := by
    have h := decodeleavesLoop_complete ([0x01, 0x00] ++ xs ++ ys ++ zs ++ rest)
      [⟨16, "x"⟩, ⟨2, "y"⟩, ⟨2, "z"⟩] (0 + 2) (by decide)
      (by rw [hlen]; simp [leafSizes])
    unfold decodeleaves
    rw [xmlnode_t.leaves, h]
    simp only [fieldsOf, e2, e3, e4, sizeofUnsigned]
    rfl
  have hs : scanheader 2 [⟨1, [1], "messageformatID", 4⟩, ⟨1, [0], "errorflag", 4⟩] =
      .ok ⟨1, true, 0, true⟩ := rfl
  refine ⟨⟨hh, hs⟩, ⟨_, rfl, rfl⟩, ?_⟩
  have hdm := decodemessage_of_header [] referenceSchema.children
    ([0x01, 0x00] ++ xs ++ ys ++ zs ++ rest) 0 0
    (.mk [⟨1, "messageformatID"⟩, ⟨1, "errorflag"⟩] [] "headerformat") rfl rfl
  have hroot : referenceSchema = .mk [] referenceSchema.children "messageformats" := rfl
  rw [hroot, hdm, hh]
  dsimp only
  have hs2 : scanheader
      (xmlnode_t.mk [⟨1, "messageformatID"⟩, ⟨1, "errorflag"⟩] [] "headerformat").nleaves
      [⟨1, [1], "messageformatID", 4⟩, ⟨1, [0], "errorflag", 4⟩] = .ok ⟨1, true, 0, true⟩ := rfl
  rw [hs2]
  dsimp only
  have hfb : findchild (bodyformat 1) referenceSchema.children = some 1 := by decide
  have hgate : ¬ ((true : Bool) = false ∨ 0 > 0) := by simp
  rw [if_neg hgate, hfb]
  dsimp only
  have hget : referenceSchema.children.getD 1 (.mk [] [] "") =
      .mk [⟨16, "x"⟩, ⟨2, "y"⟩, ⟨2, "z"⟩] [] "bodyformat1" := rfl
  rw [hget, hb]
  rfl

/-- Witness for the amended C10: the buffer of `writemessage`. -/
theorem decodemessage_reference_witness :
    decodemessage (some referenceSchema) writemessage 0 =
      .ok ⟨true, 22, [⟨1, [1], "messageformatID", 4⟩, ⟨1, [0], "errorflag", 4⟩], some 1,
           [⟨16, [0xBE, 0xBA, 0xEF, 0xBE, 0x01, 0x00, 0x00, 0x00,
                  0x02, 0x00, 0x00, 0x00, 0x03, 0x00, 0x00, 0x00], "x", 4⟩,
            ⟨2, [0x88, 0x88], "y", 4⟩, ⟨2, [0xEE, 0xEE], "z", 4⟩]⟩ :=
  (decodemessage_reference
    [0xBE, 0xBA, 0xEF, 0xBE, 0x01, 0x00, 0x00, 0x00,
     0x02, 0x00, 0x00, 0x00, 0x03, 0x00, 0x00, 0x00] [0x88, 0x88] [0xEE, 0xEE] []
    rfl rfl rfl).2.2

/-- C18, at the failing input: a two-byte `messageformatID` field holding
`257` (bytes `01 01`) with error flag `0`.  The character stored in
`bodyformat[10]` is `48 + 257` reduced to a `char`, i.e. the digit `1`, and
`decodemessage` selects and decodes the child `bodyformat1`. -/
theorem decodemessage_discriminant_wraps :
    decodeleaves (.mk [⟨2, "messageformatID"⟩, ⟨1, "errorflag"⟩] [] "headerformat")
        [1, 1, 0, 9] 0 =
      .ok ⟨true, 3, [⟨2, [1, 1], "messageformatID", 4⟩, ⟨1, [0], "errorflag", 4⟩]⟩ ∧
    scanheader 2 [⟨2, [1, 1], "messageformatID", 4⟩, ⟨1, [0], "errorflag", 4⟩] =
      .ok ⟨257, true, 0, true⟩ ∧
    bodyformat 257 = "bodyformat1" ∧
    decodemessage (some (.mk []
        [ .mk [⟨2, "messageformatID"⟩, ⟨1, "errorflag"⟩] [] "headerformat",
          .mk [⟨1, "x"⟩] [] "bodyformat1" ] "messageformats")) [1, 1, 0, 9] 0 =
      .ok ⟨true, 4, [⟨2, [1, 1], "messageformatID", 4⟩, ⟨1, [0], "errorflag", 4⟩], some 1,
           [⟨1, [9], "x", 4⟩]⟩ :=
  ⟨rfl, rfl, by decide, rfl⟩

/-! ## Lemmas on the line scanner -/

theorem strchr_none_iff (xs : List Char) (c : Char) : strchr xs c = none ↔ c ∉ xs := by
  induction xs with
  | nil => simp [strchr]
  | cons x xs ih =>
    by_cases h : x = c
    · simp [strchr, h]
    · have h2 : ¬ c = x := fun e => h e.symm
      simp [strchr, h, h2, ih]

theorem strchr_cons_self (xs : List Char) (c : Char) : strchr (c :: xs) c = some 0 := by
  simp [strchr]

/-- The search skips a prefix that does not contain the character. -/
theorem strchr_append_of_not_mem (xs ys : List Char) (c : Char) (h : c ∉ xs) :
    strchr (xs ++ ys) c = (strchr ys c).map (· + xs.length) := by
  induction xs with
  | nil => simp
  | cons x xs ih =>
    have hx : ¬ x = c := fun e => h (by simp [e])
    have hxs : c ∉ xs := fun e => h (by simp [e])
    rw [List.cons_append]
    simp only [strchr, hx, if_false, ih hxs, Option.map_map, List.length_cons]
    congr 1

/-- In a line `<name>rest` whose name has no `>`, the first `<` is at
offset 0 and the first `>` right after the name. -/
theorem strchr_tag (nm rest : List Char) (h : '>' ∉ nm) :
    strchr ('<' :: (nm ++ '>' :: rest)) '<' = some 0 ∧
    strchr ('<' :: (nm ++ '>' :: rest)) '>' = some (nm.length + 1) := by
  refine ⟨strchr_cons_self _ _, ?_⟩
  have h1 : ¬ ('<' = '>') := by decide
  simp only [strchr, h1, if_false, strchr_append_of_not_mem nm _ '>' h, if_true,
    Option.map_some']
  simp

/-- The tag name copied out of a line `<name>rest`. -/
theorem strncpy_tag (nm rest : List Char) :
    strncpy (('<' :: (nm ++ '>' :: rest)).drop (0 + 1)) (nm.length + 1 - 0 + 1 - 2) = nm := by
  simp [strncpy]

theorem block_eq_some_iff (s : ParseState) (b : Nat) (cells : List xmlnode) :
    s.block b = some cells ↔ s.blocks[b]? = some (some cells) := by
  unfold ParseState.block
  cases h : s.blocks[b]? with
  | none => simp
  | some o => simp

theorem block_lt (s : ParseState) (b : Nat) (cells : List xmlnode)
    (h : s.block b = some cells) : b < s.blocks.length := by
  rw [block_eq_some_iff] at h
  by_contra hge
  rw [List.getElem?_eq_none (by omega)] at h
  cases h

theorem deref_eq_some_iff (s : ParseState) (p : NodePtr) (n : xmlnode) :
    s.deref p = some n ↔ ∃ cells, s.block p.block = some cells ∧ cells[p.index]? = some n := by
  unfold ParseState.deref
  cases h : s.block p.block with
  | none => simp
  | some cells => simp

/-- The blocks after `*p = node`: the block of `p` has its element replaced. -/
theorem block_store (s : ParseState) (p : NodePtr) (new : xmlnode) (b : Nat) :
    (s.store p new).block b =
      if b = p.block then (s.block b).map (·.set p.index new) else s.block b := by
  unfold ParseState.store
  cases h : s.block p.block with
  | none =>
    by_cases hb : b = p.block
    · subst hb; simp [h]
    · simp [hb]
  | some cells =>
    have hlt := block_lt s p.block cells h
    by_cases hb : b = p.block
    · subst hb
      simp [ParseState.block, h, hlt] at h ⊢
      rw [h]; rfl
    · have hne : p.block ≠ b := fun e => hb e.symm
      simp [ParseState.block, hb, List.getElem?_set_ne hne]

theorem deref_store_self (s : ParseState) (p : NodePtr) (old new : xmlnode)
    (h : s.deref p = some old) : (s.store p new).deref p = some new := by
  obtain ⟨cells, hb, hi⟩ := (deref_eq_some_iff s p old).1 h
  rw [deref_eq_some_iff]
  refine ⟨cells.set p.index new, by simp [block_store, hb], ?_⟩
  have hlt : p.index < cells.length := by
    rcases Nat.lt_or_ge p.index cells.length with h1 | h1
    · exact h1
    · rw [List.getElem?_eq_none h1] at hi; cases hi
  simp [hlt]

theorem deref_store_other (s : ParseState) (p q : NodePtr) (new : xmlnode) (h : q ≠ p) :
    (s.store p new).deref q = s.deref q := by
  unfold ParseState.deref
  rw [block_store]
  by_cases hblk : q.block = p.block
  · have hidx : p.index ≠ q.index := by
      intro e
      apply h
      cases p; cases q; simp_all
    simp only [hblk, if_true]
    cases hb : s.block p.block with
    | none => rfl
    | some cells => simp [List.getElem?_set_ne hidx]
  · simp [hblk]

theorem store_current (s : ParseState) (p : NodePtr) (new : xmlnode) :
    (s.store p new).current = s.current := by
  unfold ParseState.store
  cases s.block p.block <;> rfl

theorem store_blocks_length (s : ParseState) (p : NodePtr) (new : xmlnode) :
    (s.store p new).blocks.length = s.blocks.length := by
  unfold ParseState.store
  cases s.block p.block <;> simp

/-- What `parseline` computes on a line `<name>rest` of 1 to 99 characters
whose name has no `>`: the tag is the first `name.length + 2` characters. -/
theorem parseline_tag (nm rest : List Char) (zeroed : Bool) (s : ParseState) (h : '>' ∉ nm)
    (hlen : nm.length + rest.length + 2 ≤ 99) :
    parseline ('<' :: (nm ++ '>' :: rest)) zeroed s =
      if rest = [] then
        if strchr nm '/' = none then
          match s.current with
          | none =>
            .ok (true, ⟨s.blocks ++ [some [⟨[], none, none, String.mk nm, zeroed⟩]],
                        some ⟨s.blocks.length, 0⟩⟩)
          | some cur =>
            match s.deref cur with
            | none => .error .invalidPointer
            | some node =>
              if node.initialised = false then .error .uninitialised
              else
                match node.children with
                | none =>
                  .ok (true,
                    ⟨(s.store cur { node with children := some s.blocks.length }).blocks ++
                        [some [⟨[], none, some cur, String.mk nm, zeroed⟩]],
                     some ⟨s.blocks.length, 0⟩⟩)
                | some old =>
                  match s.block old with
                  | none => .error .invalidPointer
                  | some cells =>
                    .ok (true,
                      ⟨(s.store cur { node with children := some s.blocks.length }).blocks.set
                          old none ++ [some (cells ++ [⟨[], none, some cur, String.mk nm, zeroed⟩])],
                       some ⟨s.blocks.length, cells.length⟩⟩)
        else
          match s.current with
          | none => .error .nullCurrent
          | some cur =>
            match s.deref cur with
            | none => .error .invalidPointer
            | some node =>
              match node.parent with
              | none => .ok (true, s)
              | some p => .ok (true, { s with current := some p })
      else
        match strchr ('>' :: rest) '<' with
        | none => .ok (false, s)
        | some off =>
          match atoi (strncpy rest (off + 1 - 2)) with
          | none => .error .atoiOverflow
          | some v =>
            match s.current with
            | none => .error .nullCurrent
            | some cur =>
              match s.deref cur with
              | none => .error .invalidPointer
              | some node =>
                if node.initialised = false then .error .uninitialised
                else
                  .ok (true, s.store cur
                    { node with leaves := node.leaves ++ [⟨toUnsigned v, String.mk nm⟩] }) := by
  obtain ⟨h1, h2⟩ := strchr_tag nm rest h
  have hl : ('<' :: (nm ++ '>' :: rest)).length = nm.length + rest.length + 2 := by
    simp; omega
  have hnot : ¬ (('<' :: (nm ++ '>' :: rest)).length = 0 ∨
      ('<' :: (nm ++ '>' :: rest)).length > 99) := by
    rw [hl]; omega
  have hname := strncpy_tag nm rest
  have hd1 : ('<' :: (nm ++ '>' :: rest)).drop (nm.length + 1) = '>' :: rest := by
    simp
  have hd2 : ('<' :: (nm ++ '>' :: rest)).drop (nm.length + 1 + 1) = rest := by
    simp
  unfold parseline
  simp only [hnot, if_false, h1, h2]
  have hlt : ¬ (nm.length + 1 < 0) := by omega
  simp only [hlt, if_false, hname, hd1, hd2, hl]
  by_cases hr : rest = []
  · subst hr
    simp
  · have hrl : rest.length ≠ 0 := by
      intro e; exact hr (List.length_eq_zero.1 e)
    have hne : ¬ (nm.length + rest.length + 2 = nm.length + 1 - 0 + 1) := by omega
    simp only [hne, if_false, hr]

theorem strchr_some (xs : List Char) (c : Char) (i : Nat) (h : strchr xs c = some i) :
    xs[i]? = some c ∧ c ∉ xs.take i := by
  induction xs generalizing i with
  | nil => simp [strchr] at h
  | cons x xs ih =>
    by_cases hx : x = c
    · simp only [strchr, hx, if_true, Option.some.injEq] at h
      subst h
      simp [hx]
    · simp only [strchr, hx, if_false, Option.map_eq_some'] at h
      obtain ⟨k, hk, rfl⟩ := h
      obtain ⟨h1, h2⟩ := ih k hk
      have hx2 : ¬ c = x := fun e => hx e.symm
      simp [h1, h2, hx2]

theorem atoiDigits_eq_foldl (digits : List Char) (acc : Nat) (h : ∀ c ∈ digits, c.isDigit = true) :
    atoiDigits acc digits = digits.foldl (fun a c => 10 * a + (c.toNat - 48)) acc := by
  induction digits generalizing acc with
  | nil => rfl
  | cons d ds ih =>
    have hd : d.isDigit = true := h d (by simp)
    simp only [atoiDigits, hd, if_true, List.foldl_cons]
    exact ih _ (fun c hc => h c (by simp [hc]))

theorem isDigit_ne (d c : Char) (hd : d.isDigit = true) (hc : c.isDigit = false) : d ≠ c := by
  intro e
  subst e
  rw [hd] at hc
  cases hc

/-- The function `atoi` on a non-empty string of decimal digits whose value
fits in `int`. -/
theorem atoi_digits (digits : List Char) (hne : digits ≠ [])
    (h : ∀ c ∈ digits, c.isDigit = true) (hfit : decimalValue digits < 2147483648) :
    atoi digits = some (decimalValue digits : Int) := by
  have hval : atoiDigits 0 digits = decimalValue digits := atoiDigits_eq_foldl digits 0 h
  cases digits with
  | nil => exact absurd rfl hne
  | cons d ds =>
    have hd : d.isDigit = true := h d (by simp)
    have hsp : isspace d = false := by
      cases hs : isspace d with
      | false => rfl
      | true =>
        simp only [isspace, Bool.or_eq_true, decide_eq_true_eq] at hs
        rcases hs with ((((e | e) | e) | e) | e) | e <;>
          · subst e
            revert hd
            decide
    have hm : d ≠ '-' := isDigit_ne d '-' hd (by decide)
    have hp : d ≠ '+' := isDigit_ne d '+' hd (by decide)
    unfold atoi
    simp only [List.dropWhile_cons, hsp, Bool.false_eq_true, ↓reduceIte]
    split
    · rename_i heq
      simp only [List.cons.injEq] at heq
      exact absurd heq.1 hm
    · rename_i heq
      simp only [List.cons.injEq] at heq
      exact absurd heq.1 hp
    · simp only [hval, hfit, if_true]

theorem toUnsigned_of_nat (v : Nat) (h : v < 4294967296) : toUnsigned (v : Int) = v := by
  unfold toUnsigned
  have : (v : Int) % 4294967296 = (v : Int) := Int.emod_eq_of_lt (by omega) (by omega)
  rw [this]
  simp

theorem main_readlines_append (pre rest : List (Bool × List Char)) (s s1 : ParseState)
    (h : main_readlines pre s = .ok (true, s1)) :
    main_readlines (pre ++ rest) s = main_readlines rest s1 := by
  induction pre generalizing s with
  | nil =>
    simp only [main_readlines] at h
    cases h
    rfl
  | cons zr pre ih =>
    obtain ⟨z, raw⟩ := zr
    rw [List.cons_append]
    simp only [main_readlines] at h ⊢
    by_cases hc : strchr raw '!' ≠ none
    · rw [if_pos hc] at h ⊢
      exact ih s h
    · rw [if_neg hc] at h ⊢
      cases hs : stripunwanted raw with
      | error e => simp [hs] at h
      | ok line =>
        simp only [hs] at h ⊢
        cases hp : parseline line z s with
        | error e => simp [hp] at h
        | ok r =>
          obtain ⟨b, s2⟩ := r
          cases b with
          | false => simp [hp] at h
          | true =>
            simp only [hp] at h ⊢
            exact ih s2 h

/-! ## Claims on parseline -/

/-- C15: line-length rejection.  On a line of length 0 or more than 99,
`parseline` returns `false` and leaves the storage and `current` as they
were; a 99-character opening tag is accepted, the same tag with one more
character is rejected. -/
theorem parseline_line_length :
    (∀ (line : List Char) (zeroed : Bool) (s : ParseState),
      line.length = 0 ∨ line.length > 99 →
      parseline line zeroed s = .ok (false, s)) ∧
    (∀ (nm : List Char) (zeroed : Bool) (s : ParseState),
      '>' ∉ nm → '/' ∉ nm → s.current = none →
      (nm.length = 97 → ∃ s1, parseline ('<' :: (nm ++ ['>'])) zeroed s = .ok (true, s1)) ∧
      (nm.length = 98 → parseline ('<' :: (nm ++ ['>'])) zeroed s = .ok (false, s))) := by
  constructor
  · intro line zeroed s h
    unfold parseline
    simp only [h, if_true]
  · intro nm zeroed s h1 h2 hcur
    constructor
    · intro hlen
      have hs : strchr nm '/' = none := (strchr_none_iff nm '/').2 h2
      rw [parseline_tag nm [] zeroed s h1 (by simp [hlen])]
      simp only [if_true, hs, hcur]
      exact ⟨_, rfl⟩
    · intro hlen
      unfold parseline
      have : ('<' :: (nm ++ ['>'])).length > 99 := by simp [hlen]
      simp only [this, or_true, if_true]

/-- Witness for C15: an empty line and a 100-character tag are rejected. -/
theorem parseline_line_length_witness :
    parseline [] true ParseState.empty = .ok (false, ParseState.empty) ∧
    parseline ('<' :: (List.replicate 98 'a' ++ ['>'])) true ParseState.empty =
      .ok (false, ParseState.empty) :=
  ⟨parseline_line_length.1 [] true ParseState.empty (Or.inl rfl),
   (parseline_line_length.2 (List.replicate 98 'a') true ParseState.empty
      (by decide) (by decide) rfl).2 (by decide)⟩

/-- C17: a malformed leaf line and its effect on the whole read.  On a line
of 1 to 99 characters whose first `<` comes before its first `>`, whose
tag (from that `<` to that `>`) is shorter than the line, and which has no
`<` after the first `>`, `parseline` returns `false` and leaves the
storage and `current` as they were.  And when the reading loop of `main`
reaches a line that `parseline` rejects, it ends with `parse_success`
false, whatever lines follow. -/
theorem parseline_malformed_leaf :
    (∀ (line : List Char) (zeroed : Bool) (s : ParseState) (tag_start tag_end : Nat),
      1 ≤ line.length → line.length ≤ 99 →
      strchr line '<' = some tag_start → strchr line '>' = some tag_end →
      tag_start < tag_end → tag_end - tag_start + 1 < line.length →
      '<' ∉ line.drop (tag_end + 1) →
      parseline line zeroed s = .ok (false, s)) ∧
    (∀ (pre : List (Bool × List Char)) (zeroed : Bool) (raw : List Char)
      (post : List (Bool × List Char)) (s s1 s2 : ParseState) (line : List Char),
      main_readlines pre s = .ok (true, s1) → strchr raw '!' = none →
      stripunwanted raw = .ok line → parseline line zeroed s1 = .ok (false, s2) →
      main_readlines (pre ++ (zeroed, raw) :: post) s = .ok (false, s2)) := by
  constructor
  · intro line zeroed s ts te h1 h99 hts hte hlt hshort hno
    have hnot : ¬ (line.length = 0 ∨ line.length > 99) := by omega
    have hge : ¬ (te < ts) := by omega
    have hne : ¬ (line.length = te - ts + 1) := by omega
    have hat := (strchr_some line '>' te hte).1
    have hte_lt : te < line.length := by
      rcases Nat.lt_or_ge te line.length with h | h
      · exact h
      · rw [List.getElem?_eq_none h] at hat; cases hat
    have hdrop : line.drop te = '>' :: line.drop (te + 1) := by
      rw [List.drop_eq_getElem_cons hte_lt]
      congr 1
      rw [List.getElem?_eq_getElem hte_lt] at hat
      exact Option.some.inj hat
    have hnone : strchr (line.drop te) '<' = none := by
      rw [strchr_none_iff, hdrop]
      simp only [List.mem_cons, not_or]
      exact ⟨by decide, hno⟩
    unfold parseline
    simp only [hnot, if_false, hts, hte, hge, hne, hnone]
  · intro pre zeroed raw post s s1 s2 line hpre hbang hstrip hparse
    rw [main_readlines_append pre ((zeroed, raw) :: post) s s1 hpre]
    simp only [main_readlines, hbang, ne_eq, not_true_eq_false, if_false, hstrip, hparse]

/-- Witness for C17: the line `<a>5` is rejected, and the read of
`<r>`, `<a>5`, `</r>` fails. -/
theorem parseline_malformed_leaf_witness :
    parseline ['<', 'a', '>', '5'] true ParseState.empty = .ok (false, ParseState.empty) ∧
    main_readlines [(true, ['<', 'r', '>', '\n']), (true, [' ', '<', 'a', '>', '5', '\n']),
        (true, ['<', '/', 'r', '>'])] ParseState.empty =
      .ok (false, ⟨[some [⟨[], none, none, "r", true⟩]], some ⟨0, 0⟩⟩) :=
  ⟨parseline_malformed_leaf.1 ['<', 'a', '>', '5'] true ParseState.empty 0 2
      (by decide) (by decide) rfl rfl (by decide) (by decide) (by decide),
   parseline_malformed_leaf.2 [(true, ['<', 'r', '>', '\n'])] true
      [' ', '<', 'a', '>', '5', '\n']
      [(true, ['<', '/', 'r', '>'])] ParseState.empty
      ⟨[some [⟨[], none, none, "r", true⟩]], some ⟨0, 0⟩⟩
      ⟨[some [⟨[], none, none, "r", true⟩]], some ⟨0, 0⟩⟩ ['<', 'a', '>', '5'] rfl rfl rfl rfl⟩

/-- C13: a closing-tag line.  On a line that is one tag `</name>` (at most
99 characters, whatever the name is) and with `current` pointing at a
node, `parseline` returns `true`, leaves the storage untouched, and sets
`current` to that node's parent pointer, or leaves it in place when the
parent pointer is `NULL` (the head node). -/
theorem parseline_closing (nm : List Char) (zeroed : Bool) (s : ParseState) (cur : NodePtr)
    (node : xmlnode)
    (hnm : '>' ∉ nm) (hlen : nm.length + 3 ≤ 99)
    (hcur : s.current = some cur) (hnode : s.deref cur = some node) :
    parseline ('<' :: '/' :: (nm ++ ['>'])) zeroed s =
      .ok (true, ⟨s.blocks, some (node.parent.getD cur)⟩) := by
  have h1 : '>' ∉ '/' :: nm := by
    simp only [List.mem_cons, not_or]
    exact ⟨by decide, hnm⟩
  have hs : strchr ('/' :: nm) '/' ≠ none := by simp [strchr]
  have := parseline_tag ('/' :: nm) [] zeroed s h1 (by simp; omega)
  rw [List.cons_append] at this
  rw [this]
  simp only [if_true, hs, if_false, hcur, hnode]
  cases hp : node.parent with
  | none =>
    simp only [Option.getD_none]
    rw [← hcur]
  | some p => simp

/-- Witness for C13: `</b>` closes the child and `</zzz>` at the head node
leaves `current` in place. -/
theorem parseline_closing_witness :
    parseline ['<', '/', 'b', '>'] true
        ⟨[some [⟨[], some 1, none, "r", true⟩], some [⟨[], none, some ⟨0, 0⟩, "a", true⟩]],
          some ⟨1, 0⟩⟩ =
      .ok (true,
        ⟨[some [⟨[], some 1, none, "r", true⟩], some [⟨[], none, some ⟨0, 0⟩, "a", true⟩]],
          some ⟨0, 0⟩⟩) :=
  parseline_closing ['b'] true
    ⟨[some [⟨[], some 1, none, "r", true⟩], some [⟨[], none, some ⟨0, 0⟩, "a", true⟩]],
      some ⟨1, 0⟩⟩
    ⟨1, 0⟩ ⟨[], none, some ⟨0, 0⟩, "a", true⟩ (by decide) (by decide) rfl rfl

/-- C14, the claim against the code.  Take a line `<name>DIGITS</anything>`
of at most 99 characters, where `DIGITS` is a non-empty string of decimal
digits whose value fits in `int`, and `current` pointing at a node.  When
the fields of that node are initialised, `parseline` returns `true` and
stores, at that node, the node with the leaf `(name, value)` appended after
its earlier leaves; the node's children pointer, parent pointer and name,
every other node, the number of blocks and `current` are unchanged.  When
the node was created in storage that was not zero-filled, `parseline`
increments an `nleaves` that nothing ever stored and has no defined
result. -/
theorem parseline_leaf (nm digits anything : List Char) (zeroed : Bool) (s : ParseState)
    (cur : NodePtr) (node : xmlnode)
    (hnm : '>' ∉ nm) (hne : digits ≠ []) (hdig : ∀ c ∈ digits, c.isDigit = true)
    (hfit : decimalValue digits < 2147483648)
    (hlen : ('<' :: (nm ++ '>' :: (digits ++ '<' :: '/' :: (anything ++ ['>'])))).length ≤ 99)
    (hcur : s.current = some cur) (hnode : s.deref cur = some node) :
    (node.initialised = true →
      ∃ s1, parseline ('<' :: (nm ++ '>' :: (digits ++ '<' :: '/' :: (anything ++ ['>']))))
          zeroed s = .ok (true, s1) ∧
        s1.current = s.current ∧
        s1.blocks.length = s.blocks.length ∧
        s1.deref cur = some ⟨node.leaves ++ [⟨decimalValue digits, String.mk nm⟩],
          node.children, node.parent, node.name, true⟩ ∧
        ∀ q, q ≠ cur → s1.deref q = s.deref q) ∧
    (node.initialised = false →
      parseline ('<' :: (nm ++ '>' :: (digits ++ '<' :: '/' :: (anything ++ ['>']))))
        zeroed s = .error .uninitialised) := by
  have hlen2 : nm.length + (digits ++ '<' :: '/' :: (anything ++ ['>'])).length + 2 ≤ 99 := by
    simp at hlen ⊢; omega
  have hrest : digits ++ '<' :: '/' :: (anything ++ ['>']) ≠ [] := by simp
  have hno : '<' ∉ digits := by
    intro hmem
    have := hdig '<' hmem
    revert this
    decide
  have hoff : strchr ('>' :: (digits ++ '<' :: '/' :: (anything ++ ['>']))) '<' =
      some (digits.length + 1) := by
    have h1 : ¬ ('>' = '<') := by decide
    simp only [strchr, h1, if_false, strchr_append_of_not_mem digits _ '<' hno, if_true,
      Option.map_some']
    simp
  have hcopy : strncpy (digits ++ '<' :: '/' :: (anything ++ ['>'])) (digits.length + 1 + 1 - 2) =
      digits := by
    simp [strncpy]
  rw [parseline_tag nm _ zeroed s hnm hlen2]
  simp only [hrest, if_false, hoff, hcopy, atoi_digits digits hne hdig hfit, hcur, hnode,
    toUnsigned_of_nat (decimalValue digits) (by omega)]
  constructor
  · intro hinit
    have hni : ¬ (node.initialised = false) := by rw [hinit]; decide
    rw [if_neg hni]
    have hnode2 : ({ node with leaves := node.leaves ++ [⟨decimalValue digits, String.mk nm⟩] } :
        xmlnode) = ⟨node.leaves ++ [⟨decimalValue digits, String.mk nm⟩],
          node.children, node.parent, node.name, true⟩ := by
      rw [← hinit]
    rw [hnode2]
    refine ⟨_, rfl, (store_current _ _ _).trans hcur, store_blocks_length _ _ _,
      deref_store_self s cur node _ hnode, ?_⟩
    intro q hq
    exact deref_store_other s cur q _ hq
  · intro hinit
    rw [if_pos hinit]

/-- Witness for C14: `<x>16</x>` at a head node that already has a leaf; and
the failing input: the lines `<r>`, `<a>`, `</a>`, `<c>`, `<d>` with the
node `d` created in storage that was not zero-filled, then `<x>16</x>`
under `d`. -/
theorem parseline_leaf_witness :
    (∃ s1, parseline ['<', 'x', '>', '1', '6', '<', '/', 'x', '>'] true
        ⟨[some [⟨[⟨1, "w"⟩], none, none, "r", true⟩]], some ⟨0, 0⟩⟩ = .ok (true, s1) ∧
      s1.deref ⟨0, 0⟩ =
        some ⟨[⟨1, "w"⟩] ++ [⟨decimalValue ['1', '6'], String.mk ['x']⟩], none, none, "r",
          true⟩) ∧
    parselines [(true, ['<', 'r', '>']), (true, ['<', 'a', '>']), (true, ['<', '/', 'a', '>']),
        (true, ['<', 'c', '>']), (false, ['<', 'd', '>'])] ParseState.empty =
      .ok (true,
        ⟨[some [⟨[], some 2, none, "r", true⟩], none,
          some [⟨[], none, some ⟨0, 0⟩, "a", true⟩, ⟨[], some 3, some ⟨0, 0⟩, "c", true⟩],
          some [⟨[], none, some ⟨2, 1⟩, "d", false⟩]],
          some ⟨3, 0⟩⟩) ∧
    parseline ['<', 'x', '>', '1', '6', '<', '/', 'x', '>'] true
        ⟨[some [⟨[], some 2, none, "r", true⟩], none,
          some [⟨[], none, some ⟨0, 0⟩, "a", true⟩, ⟨[], some 3, some ⟨0, 0⟩, "c", true⟩],
          some [⟨[], none, some ⟨2, 1⟩, "d", false⟩]],
          some ⟨3, 0⟩⟩ = .error .uninitialised :=
  ⟨((parseline_leaf ['x'] ['1', '6'] ['x'] true
      ⟨[some [⟨[⟨1, "w"⟩], none, none, "r", true⟩]], some ⟨0, 0⟩⟩ ⟨0, 0⟩
      ⟨[⟨1, "w"⟩], none, none, "r", true⟩
      (by decide) (by decide) (by decide) (by decide) (by decide) rfl rfl).1 rfl).elim
      (fun s1 hs => ⟨s1, hs.1, hs.2.2.2.1⟩),
   rfl,
   (parseline_leaf ['x'] ['1', '6'] ['x'] true
      ⟨[some [⟨[], some 2, none, "r", true⟩], none,
        some [⟨[], none, some ⟨0, 0⟩, "a", true⟩, ⟨[], some 3, some ⟨0, 0⟩, "c", true⟩],
        some [⟨[], none, some ⟨2, 1⟩, "d", false⟩]],
        some ⟨3, 0⟩⟩ ⟨3, 0⟩ ⟨[], none, some ⟨2, 1⟩, "d", false⟩
      (by decide) (by decide) (by decide) (by decide) (by decide) rfl rfl).2 rfl⟩

/-- Reading through a pointer depends only on the block it points into. -/
theorem deref_congr (blocks1 blocks2 : List (Option (List xmlnode))) (c1 c2 : Option NodePtr)
    (q : NodePtr) (h : blocks1[q.block]? = blocks2[q.block]?) :
    ParseState.deref ⟨blocks1, c1⟩ q = ParseState.deref ⟨blocks2, c2⟩ q := by
  simp [ParseState.deref, ParseState.block, h]

theorem deref_lt (s : ParseState) (q : NodePtr) (n : xmlnode) (h : s.deref q = some n) :
    q.block < s.blocks.length := by
  obtain ⟨cells, hb, _⟩ := (deref_eq_some_iff s q n).1 h
  exact block_lt s q.block cells hb

/-- C12, the claim against the code.  Take a line that is one tag `<name>`
(at most 99 characters) whose name has no `/`.  `parseline` stores the
name and the parent pointer of the node it creates and nothing else: the
node has no leaves and no children exactly when the storage it is created
in is zero-filled (`zeroed`), and otherwise its `nleaves`, `leaves`,
`nchildren` and `children` are not initialised.  With `current == NULL`
the node is allocated on its own, has a `NULL` parent and becomes
`current`, and the blocks allocated before are untouched.  With `current`
pointing at an initialised node whose children array (if any) is allocated
and is not the array that node sits in, `parseline` returns `true`; the
children array of that node becomes its former elements, in order,
followed by the new node; the new node's parent pointer is the former
`current`; `current` points at the new node; the node's own leaves, parent
pointer and name are unchanged, and so is every other node outside the
reallocated array.  With `current` pointing at a node that is not
initialised, `parseline` reads an `nchildren` that nothing ever stored and
has no defined result. -/
theorem parseline_opening (nm : List Char) (zeroed : Bool) (s : ParseState)
    (hnm : '>' ∉ nm) (hslash : '/' ∉ nm) (hlen : nm.length + 2 ≤ 99) :
    (s.current = none →
      ∃ s1 p, parseline ('<' :: (nm ++ ['>'])) zeroed s = .ok (true, s1) ∧
        s1.current = some p ∧ s1.deref p = some ⟨[], none, none, String.mk nm, zeroed⟩ ∧
        s1.blocks = s.blocks ++ [some [⟨[], none, none, String.mk nm, zeroed⟩]]) ∧
    (∀ (cur : NodePtr) (node : xmlnode), s.current = some cur → s.deref cur = some node →
      node.initialised = true →
      (∀ old, node.children = some old → old ≠ cur.block ∧ ∃ cells, s.block old = some cells) →
      ∃ s1 p b, parseline ('<' :: (nm ++ ['>'])) zeroed s = .ok (true, s1) ∧
        s1.current = some p ∧ s1.deref p = some ⟨[], none, some cur, String.mk nm, zeroed⟩ ∧
        s1.deref cur = some ⟨node.leaves, some b, node.parent, node.name, true⟩ ∧
        s1.block b = some (s.kids node ++ [⟨[], none, some cur, String.mk nm, zeroed⟩]) ∧
        p = ⟨b, (s.kids node).length⟩ ∧
        ∀ (q : NodePtr) (n : xmlnode), s.deref q = some n → q ≠ cur →
          node.children ≠ some q.block → s1.deref q = some n) ∧
    (∀ (cur : NodePtr) (node : xmlnode), s.current = some cur → s.deref cur = some node →
      node.initialised = false →
      parseline ('<' :: (nm ++ ['>'])) zeroed s = .error .uninitialised) := by
  have hs : strchr nm '/' = none := (strchr_none_iff nm '/').2 hslash
  have htag := parseline_tag nm [] zeroed s hnm (by simp; omega)
  simp only [if_true, hs] at htag
  refine ⟨?_, ?_, ?_⟩
  · intro hcur
    rw [htag]
    simp only [hcur]
    refine ⟨_, _, rfl, rfl, ?_, rfl⟩
    simp [ParseState.deref, ParseState.block]
  · intro cur node hcur hnode hinit hwf
    have hni : ¬ (node.initialised = false) := by rw [hinit]; decide
    rw [htag]
    simp only [hcur, hnode, if_neg hni]
    obtain ⟨ccells, hcb, hci⟩ := (deref_eq_some_iff s cur node).1 hnode
    have hcb2 := (block_eq_some_iff s cur.block ccells).1 hcb
    have hclt := block_lt s cur.block ccells hcb
    have hci_lt : cur.index < ccells.length := by
      rcases Nat.lt_or_ge cur.index ccells.length with h | h
      · exact h
      · rw [List.getElem?_eq_none h] at hci; cases hci
    have hsb : (s.store cur { node with children := some s.blocks.length }).blocks =
        s.blocks.set cur.block
          (some (ccells.set cur.index { node with children := some s.blocks.length })) := by
      unfold ParseState.store
      simp [hcb]
    have hother : ∀ (q : NodePtr) (n : xmlnode), s.deref q = some n → q ≠ cur →
        ParseState.deref ⟨s.blocks.set cur.block
          (some (ccells.set cur.index { node with children := some s.blocks.length })),
          s.current⟩ q = some n := by
      intro q n hq hne
      have := deref_store_other s cur q { node with children := some s.blocks.length } hne
      rw [hq] at this
      rw [← this]
      apply deref_congr
      rw [hcb]
    cases hch : node.children with
    | none =>
      simp only [hsb]
      refine ⟨_, _, s.blocks.length, rfl, rfl, ?_, ?_, ?_, ?_, ?_⟩
      · simp [ParseState.deref, ParseState.block]
      · simp [ParseState.deref, ParseState.block, List.getElem?_append_left, hclt, hci_lt, hinit]
      · simp [ParseState.block, ParseState.kids, hch]
      · simp [ParseState.kids, hch]
      · intro q n hq hne _
        rw [← hother q n hq hne]
        apply deref_congr
        have hqlt := deref_lt s q n hq
        rw [List.getElem?_append_left (by simpa using hqlt)]
    | some old =>
      obtain ⟨hold, cells, hcells⟩ := hwf old hch
      have holdlt := block_lt s old cells hcells
      simp only [hsb, hcells]
      have hkids : s.kids node = cells := by simp [ParseState.kids, hch, hcells]
      refine ⟨_, _, s.blocks.length, rfl, rfl, ?_, ?_, ?_, ?_, ?_⟩
      · simp [ParseState.deref, ParseState.block]
      · have hne : old ≠ cur.block := hold
        simp [ParseState.deref, ParseState.block, List.getElem?_append_left, hclt, hci_lt,
          List.getElem?_set_ne hne, hinit]
      · simp [ParseState.block, hkids]
      · rw [hkids]
      · intro q n hq hne hqb
        rw [← hother q n hq hne]
        apply deref_congr
        have hqlt := deref_lt s q n hq
        have hqo : old ≠ q.block := by
          intro e; apply hqb; rw [e]
        rw [List.getElem?_append_left (by simpa using hqlt), List.getElem?_set_ne hqo]
  · intro cur node hcur hnode hinit
    rw [htag]
    simp only [hcur, hnode, if_pos hinit]

/-- Witness for C12.  `<a>` with nothing allocated and `<c>` under a head
node that already has one child, both in zero-filled storage; and the
failing input: after `<r>`, `<a>`, `</a>`, `<c>` the line `<d>` is parsed
while `malloc` hands out storage that is not zero-filled (the block the
`realloc` at `<c>` released): the node `d` is created with its four fields
not initialised, and the next opening tag under it has no defined result. -/
theorem parseline_opening_witness :
    (∃ s1 p, parseline ['<', 'a', '>'] true ParseState.empty = .ok (true, s1) ∧
      s1.current = some p ∧ s1.deref p = some ⟨[], none, none, String.mk ['a'], true⟩ ∧
      s1.blocks = ParseState.empty.blocks ++ [some [⟨[], none, none, String.mk ['a'], true⟩]]) ∧
    (∃ s1 p b, parseline ['<', 'c', '>'] true
        ⟨[some [⟨[], some 1, none, "r", true⟩], some [⟨[], none, some ⟨0, 0⟩, "a", true⟩]],
          some ⟨0, 0⟩⟩ = .ok (true, s1) ∧
      s1.current = some p ∧ s1.deref p = some ⟨[], none, some ⟨0, 0⟩, String.mk ['c'], true⟩ ∧
      s1.deref ⟨0, 0⟩ = some ⟨[], some b, none, "r", true⟩ ∧
      s1.block b = some ([⟨[], none, some ⟨0, 0⟩, "a", true⟩] ++
        [⟨[], none, some ⟨0, 0⟩, String.mk ['c'], true⟩])) ∧
    parselines (zeroedLines [['<', 'r', '>'], ['<', 'a', '>'], ['<', '/', 'a', '>'],
        ['<', 'c', '>']]) ParseState.empty =
      .ok (true,
        ⟨[some [⟨[], some 2, none, "r", true⟩], none,
          some [⟨[], none, some ⟨0, 0⟩, "a", true⟩, ⟨[], none, some ⟨0, 0⟩, "c", true⟩]],
          some ⟨2, 1⟩⟩) ∧
    (∃ s1 p b, parseline ['<', 'd', '>'] false
        ⟨[some [⟨[], some 2, none, "r", true⟩], none,
          some [⟨[], none, some ⟨0, 0⟩, "a", true⟩, ⟨[], none, some ⟨0, 0⟩, "c", true⟩]],
          some ⟨2, 1⟩⟩ = .ok (true, s1) ∧
      s1.current = some p ∧
      s1.deref p = some ⟨[], none, some ⟨2, 1⟩, String.mk ['d'], false⟩ ∧
      s1.deref ⟨2, 1⟩ = some ⟨[], some b, some ⟨0, 0⟩, "c", true⟩) ∧
    parseline ['<', 'e', '>'] true
        ⟨[some [⟨[], some 2, none, "r", true⟩], none,
          some [⟨[], none, some ⟨0, 0⟩, "a", true⟩, ⟨[], some 3, some ⟨0, 0⟩, "c", true⟩],
          some [⟨[], none, some ⟨2, 1⟩, "d", false⟩]],
          some ⟨3, 0⟩⟩ = .error .uninitialised :=
  ⟨(parseline_opening ['a'] true ParseState.empty (by decide) (by decide) (by decide)).1 rfl,
   ((parseline_opening ['c'] true
      ⟨[some [⟨[], some 1, none, "r", true⟩], some [⟨[], none, some ⟨0, 0⟩, "a", true⟩]],
        some ⟨0, 0⟩⟩
      (by decide) (by decide) (by decide)).2.1 ⟨0, 0⟩ ⟨[], some 1, none, "r", true⟩ rfl rfl rfl
      (by
        intro old h
        cases h
        exact ⟨by decide, _, rfl⟩)).elim
    (fun s1 h1 => h1.elim (fun p h2 => h2.elim (fun b h3 =>
      ⟨s1, p, b, h3.1, h3.2.1, h3.2.2.1, h3.2.2.2.1, h3.2.2.2.2.1⟩))),
   rfl,
   ((parseline_opening ['d'] false
      ⟨[some [⟨[], some 2, none, "r", true⟩], none,
        some [⟨[], none, some ⟨0, 0⟩, "a", true⟩, ⟨[], none, some ⟨0, 0⟩, "c", true⟩]],
        some ⟨2, 1⟩⟩
      (by decide) (by decide) (by decide)).2.1 ⟨2, 1⟩ ⟨[], none, some ⟨0, 0⟩, "c", true⟩
      rfl rfl rfl
      (by
        intro old h
        cases h)).elim
    (fun s1 h1 => h1.elim (fun p h2 => h2.elim (fun b h3 =>
      ⟨s1, p, b, h3.1, h3.2.1, h3.2.2.1, h3.2.2.2.1⟩))),
   (parseline_opening ['e'] true
      ⟨[some [⟨[], some 2, none, "r", true⟩], none,
        some [⟨[], none, some ⟨0, 0⟩, "a", true⟩, ⟨[], some 3, some ⟨0, 0⟩, "c", true⟩],
        some [⟨[], none, some ⟨2, 1⟩, "d", false⟩]],
        some ⟨3, 0⟩⟩
      (by decide) (by decide) (by decide)).2.2 ⟨3, 0⟩ ⟨[], none, some ⟨2, 1⟩, "d", false⟩
      rfl rfl rfl⟩

/-! ## stripunwanted -/

theorem drop_length_takeWhile (p : Char → Bool) (xs : List Char) :
    xs.drop (xs.takeWhile p).length = xs.dropWhile p := by
  induction xs with
  | nil => rfl
  | cons x xs ih =>
    by_cases h : p x = true
    · simp [List.takeWhile_cons, List.dropWhile_cons, h, ih]
    · simp [List.takeWhile_cons, List.dropWhile_cons, h]

theorem filter_dropWhile_unwanted (xs : List Char) :
    (xs.dropWhile isunwanted).filter (fun c => !isunwanted c) =
      xs.filter (fun c => !isunwanted c) := by
  induction xs with
  | nil => rfl
  | cons x xs ih =>
    by_cases h : isunwanted x = true
    · simp [List.dropWhile_cons, h, ih]
    · simp [List.dropWhile_cons, h]

/-- The backwards loop stops at the last wanted character at or below
`idx`, provided the first character is wanted. -/
theorem trailingLoop_spec (line : List Char) (h0 : isunwanted (charAt line 0) = false)
    (idx : Nat) :
    ∃ k, trailingLoop line idx = some k ∧ k ≤ idx ∧ isunwanted (charAt line k) = false ∧
      ∀ j, k < j → j ≤ idx → isunwanted (charAt line j) = true := by
  induction idx with
  | zero =>
    refine ⟨0, ?_, Nat.le_refl _, h0, ?_⟩
    · simp [trailingLoop, h0]
    · intro j h1 h2; omega
  | succ idx ih =>
    by_cases h : isunwanted (charAt line (idx + 1)) = true
    · obtain ⟨k, hk1, hk2, hk3, hk4⟩ := ih
      refine ⟨k, ?_, by omega, hk3, ?_⟩
      · simp [trailingLoop, h, hk1]
      · intro j h1 h2
        rcases Nat.lt_or_ge j (idx + 1) with hj | hj
        · exact hk4 j h1 (by omega)
        · have : j = idx + 1 := by omega
          subst this
          exact h
    · have hf : isunwanted (charAt line (idx + 1)) = false := by
        cases hh : isunwanted (charAt line (idx + 1)) with
        | false => rfl
        | true => exact absurd hh h
      refine ⟨idx + 1, ?_, Nat.le_refl _, hf, ?_⟩
      · simp [trailingLoop, hf]
      · intro j h1 h2; omega

theorem charAt_of_lt (str : List Char) (i : Nat) (h : i < str.length) :
    charAt str i = str[i] := by
  simp [charAt, List.getD_eq_getElem?_getD, List.getElem?_eq_getElem h]

/-- With enough fuel the erasing loop keeps the part before `idx` and
filters the part from `idx` on. -/
theorem removeLoop_spec (fuel : Nat) (str : List Char) (idx : Nat)
    (hfuel : str.length - idx ≤ fuel) :
    removeLoop fuel str idx =
      str.take idx ++ (str.drop idx).filter (fun c => !isunwanted c) := by
  induction fuel generalizing str idx with
  | zero =>
    have hge : str.length ≤ idx := by omega
    simp [removeLoop, List.take_of_length_le hge, List.drop_of_length_le hge]
  | succ fuel ih =>
    by_cases hlt : idx < str.length
    · have hdrop : str.drop idx = str[idx] :: str.drop (idx + 1) :=
        List.drop_eq_getElem_cons hlt
      by_cases hu : isunwanted (charAt str idx) = true
      · have hu2 : isunwanted str[idx] = true := by rwa [charAt_of_lt str idx hlt] at hu
        simp only [removeLoop, hlt, if_true, hu]
        rw [ih (str.eraseIdx idx) idx (by rw [List.length_eraseIdx]; simp [hlt]; omega)]
        rw [hdrop, List.filter_cons]
        simp only [hu2, Bool.not_true, Bool.false_eq_true, if_false]
        have e1 : (str.eraseIdx idx).take idx = str.take idx := by
          rw [List.eraseIdx_eq_take_drop_succ, List.take_append_of_le_length (by simp; omega)]
          simp [List.take_take]
        have e2 : (str.eraseIdx idx).drop idx = str.drop (idx + 1) := by
          rw [List.eraseIdx_eq_take_drop_succ]
          have hl : (str.take idx).length = idx := by simp; omega
          rw [List.drop_append_eq_append_drop, hl]
          simp [List.drop_of_length_le (Nat.le_of_eq hl)]
        rw [e1, e2]
      · have hu2 : isunwanted str[idx] = false := by
          rw [charAt_of_lt str idx hlt] at hu
          cases hh : isunwanted str[idx] with
          | false => rfl
          | true => exact absurd hh hu
        simp only [removeLoop, hlt, if_true, hu, if_false]
        rw [ih str (idx + 1) (by omega)]
        rw [hdrop, List.filter_cons]
        simp only [hu2, Bool.not_false, if_true]
        have ht : str.take (idx + 1) = str.take idx ++ [str[idx]] := by
          rw [List.take_succ, List.getElem?_eq_getElem hlt]
          rfl
        rw [ht, List.append_assoc]
        rfl
    · have hge : str.length ≤ idx := by omega
      simp [removeLoop, hlt, List.take_of_length_le hge, List.drop_of_length_le hge]

theorem dropWhile_head_wanted (xs : List Char) (y : Char) (ys : List Char)
    (h : xs.dropWhile isunwanted = y :: ys) : isunwanted y = false := by
  induction xs with
  | nil => simp at h
  | cons x xs ih =>
    by_cases hx : isunwanted x = true
    · simp only [List.dropWhile_cons, hx, if_true] at h
      exact ih h
    · simp only [List.dropWhile_cons, hx, Bool.false_eq_true, if_false] at h
      cases h
      cases hh : isunwanted y with
      | false => rfl
      | true => exact absurd hh hx

/-- On a line with at least one character other than space, tab and
newline, `stripunwanted` leaves exactly the other characters, in order. -/
theorem stripunwanted_of_wanted (ln : List Char) (h : ∃ c ∈ ln, isunwanted c = false) :
    stripunwanted ln = .ok (ln.filter (fun c => !isunwanted c)) := by
  have hl1 : (if (ln.takeWhile isunwanted).length > 0
      then ln.drop (ln.takeWhile isunwanted).length else ln) = ln.dropWhile isunwanted := by
    by_cases hpos : (ln.takeWhile isunwanted).length > 0
    · rw [if_pos hpos, drop_length_takeWhile]
    · rw [if_neg hpos, ← drop_length_takeWhile]
      have : (ln.takeWhile isunwanted).length = 0 := by omega
      rw [this, List.drop_zero]
  unfold stripunwanted
  simp only [hl1]
  cases hd : ln.dropWhile isunwanted with
  | nil =>
    exfalso
    obtain ⟨c, hc, hw⟩ := h
    have := (List.dropWhile_eq_nil_iff.1 hd) c hc
    rw [hw] at this
    cases this
  | cons y ys =>
    have hy := dropWhile_head_wanted ln y ys hd
    have h0 : isunwanted (charAt (y :: ys) 0) = false := by simpa [charAt] using hy
    obtain ⟨k, hk1, hk2, _, hk4⟩ := trailingLoop_spec (y :: ys) h0 ((y :: ys).length - 1)
    have hlen : ¬ ((y :: ys).length = 0) := by simp
    simp only [hlen, if_false, hk1]
    rw [removeLoop_spec _ _ 0 (by omega)]
    simp only [List.take_zero, List.nil_append, List.drop_zero]
    have hsplit : (y :: ys) = (y :: ys).take (k + 1) ++ (y :: ys).drop (k + 1) :=
      (List.take_append_drop _ _).symm
    have htail : ((y :: ys).drop (k + 1)).filter (fun c => !isunwanted c) = [] := by
      rw [List.filter_eq_nil_iff]
      intro c hc
      obtain ⟨i, hi, rfl⟩ := List.mem_iff_getElem.1 hc
      rw [List.length_drop] at hi
      have hidx : k + 1 + i < (y :: ys).length := by omega
      have := hk4 (k + 1 + i) (by omega) (by omega)
      rw [charAt_of_lt _ _ hidx] at this
      simp only [List.getElem_drop]
      simp [this]
    have hfilter : ((y :: ys).take (k + 1)).filter (fun c => !isunwanted c) =
        (y :: ys).filter (fun c => !isunwanted c) := by
      conv_rhs => rw [hsplit, List.filter_append, htail, List.append_nil]
    rw [hfilter, ← hd, filter_dropWhile_unwanted]

/-- On a line made only of spaces, tabs and newlines (a blank line of the
schema file, or an empty string), `stripunwanted` indexes the emptied
string at `strlen(line)-1`. -/
theorem stripunwanted_of_blank (ln : List Char) (h : ∀ c ∈ ln, isunwanted c = true) :
    stripunwanted ln = .error .indexBeforeStart := by
  have hd : ln.dropWhile isunwanted = [] := List.dropWhile_eq_nil_iff.2 h
  have hl1 : (if (ln.takeWhile isunwanted).length > 0
      then ln.drop (ln.takeWhile isunwanted).length else ln) = [] := by
    by_cases hpos : (ln.takeWhile isunwanted).length > 0
    · rw [if_pos hpos, drop_length_takeWhile, hd]
    · rw [if_neg hpos]
      have h0 : (ln.takeWhile isunwanted).length = 0 := by omega
      have := drop_length_takeWhile isunwanted ln
      rw [h0, List.drop_zero, hd] at this
      exact this
  unfold stripunwanted
  simp only [hl1, List.length_nil, if_true]

/-- The result of `stripunwanted` has no space, tab or newline, and a second
`stripunwanted` returns it unchanged. -/
theorem stripunwanted_idempotent (ln out : List Char) (h : stripunwanted ln = .ok out) :
    (∀ c ∈ out, isunwanted c = false) ∧ stripunwanted out = .ok out := by
  by_cases hw : ∃ c ∈ ln, isunwanted c = false
  · rw [stripunwanted_of_wanted ln hw] at h
    cases h
    have hclean : ∀ c ∈ ln.filter (fun c => !isunwanted c), isunwanted c = false := by
      intro c hc
      have := (List.mem_filter.1 hc).2
      simpa using this
    refine ⟨hclean, ?_⟩
    obtain ⟨c, hc, hcw⟩ := hw
    have hmem : c ∈ ln.filter (fun c => !isunwanted c) := by
      rw [List.mem_filter]; exact ⟨hc, by simp [hcw]⟩
    rw [stripunwanted_of_wanted _ ⟨c, hmem, hcw⟩, List.filter_filter]
    simp
  · push_neg at hw
    have hb : ∀ c ∈ ln, isunwanted c = true := by
      intro c hc
      cases hh : isunwanted c with
      | true => rfl
      | false => exact absurd hh (hw c hc)
    rw [stripunwanted_of_blank ln hb] at h
    cases h

/-- C16, at the failing input: on the blank line `"\n"` (and on `" \t\n"`)
the leading-whitespace step empties the string, `idx = strlen(line)-1`
wraps around in `unsigned`, and `line[idx]` is read outside the string; no
stripped line results. -/
theorem stripunwanted_blank_line :
    stripunwanted ['\n'] = .error .indexBeforeStart ∧
    stripunwanted [' ', '\t', '\n'] = .error .indexBeforeStart ∧
    stripunwanted [' ', '<', 'a', '>', ' ', '5', '\t', '<', '/', 'a', '>', '\n'] =
      .ok ['<', 'a', '>', '5', '<', '/', 'a', '>'] :=
  ⟨rfl, rfl, rfl⟩

/-- C19, at the failing input: the lines `<r>`, `<a>`, `<b>`, `</b>`,
`</a>`, `<c>` are all accepted.  Opening `<c>` reallocates the children
array of `r`, which holds the node `a` by value: `a` now sits in the new
array (block 3) and still has `b` as its only child (block 2), but the
parent pointer stored in `b` is the address `a` had in the old array
(block 1), which has been released.  The head node has a `NULL` parent and
`current` is the last child of the head node. -/
theorem parseline_parent_dangles :
    parselines (zeroedLines [['<', 'r', '>'], ['<', 'a', '>'], ['<', 'b', '>'],
        ['<', '/', 'b', '>'], ['<', '/', 'a', '>'], ['<', 'c', '>']]) ParseState.empty =
      .ok (true,
        ⟨[some [⟨[], some 3, none, "r", true⟩],
          none,
          some [⟨[], none, some ⟨1, 0⟩, "b", true⟩],
          some [⟨[], some 2, some ⟨0, 0⟩, "a", true⟩, ⟨[], none, some ⟨0, 0⟩, "c", true⟩]],
         some ⟨3, 1⟩⟩) ∧
    ParseState.deref
        ⟨[some [⟨[], some 3, none, "r", true⟩],
          none,
          some [⟨[], none, some ⟨1, 0⟩, "b", true⟩],
          some [⟨[], some 2, some ⟨0, 0⟩, "a", true⟩, ⟨[], none, some ⟨0, 0⟩, "c", true⟩]],
         some ⟨3, 1⟩⟩ ⟨1, 0⟩ = none :=
  ⟨rfl, rfl⟩

/-! ## The build round trip -/

theorem parselines_append (a b : List (Bool × List Char)) (s s1 : ParseState)
    (h : parselines a s = .ok (true, s1)) :
    parselines (a ++ b) s = parselines b s1 := by
  induction a generalizing s with
  | nil =>
    simp only [parselines] at h
    cases h
    rfl
  | cons zl a ih =>
    obtain ⟨z, ln⟩ := zl
    rw [List.cons_append]
    simp only [parselines] at h ⊢
    cases hp : parseline ln z s with
    | error e => simp [hp] at h
    | ok r =>
      obtain ⟨ret, s2⟩ := r
      cases ret with
      | false => simp [hp] at h
      | true =>
        simp only [hp] at h ⊢
        exact ih s2 h

theorem zeroedLines_append (a b : List (List Char)) :
    zeroedLines (a ++ b) = zeroedLines a ++ zeroedLines b := by
  simp [zeroedLines]

theorem zeroedLines_cons (ln : List Char) (a : List (List Char)) :
    zeroedLines (ln :: a) = (true, ln) :: zeroedLines a := rfl

theorem zeroedLines_nil : zeroedLines [] = [] := rfl

theorem parselines_cons (z : Bool) (ln : List Char) (rest : List (Bool × List Char))
    (s s1 : ParseState) (h : parseline ln z s = .ok (true, s1)) :
    parselines ((z, ln) :: rest) s = parselines rest s1 := by
  simp only [parselines, h]

theorem kids_congr (s s1 : ParseState) (node : xmlnode)
    (h : ∀ b, node.children = some b → s1.block b = s.block b) :
    s1.kids node = s.kids node := by
  unfold ParseState.kids
  cases hc : node.children with
  | none => rfl
  | some b => simp only [h b hc]

mutual
/-- A held tree stays held when the blocks it occupies are untouched. -/
theorem reprIn_transfer (s s1 : ParseState) (P Q : Nat → Prop)
    (hPQ : ∀ x, P x → Q x ∧ s1.block x = s.block x) :
    ∀ (node : xmlnode) (t : xmlnode_t), ReprIn s P node t → ReprIn s1 Q node t
  | node, .mk ls cs n => by
    intro h
    rw [ReprIn] at h ⊢
    obtain ⟨h0, h1, h2, h3, h4, h5⟩ := h
    refine ⟨h0, h1, h2, h3, fun b hb => (hPQ b (h4 b hb)).1, ?_⟩
    rw [kids_congr s s1 node (fun b hb => (hPQ b (h4 b hb)).2)]
    exact reprListIn_transfer s s1 P Q hPQ (s.kids node) cs h5
/-- The list version of `reprIn_transfer`. -/
theorem reprListIn_transfer (s s1 : ParseState) (P Q : Nat → Prop)
    (hPQ : ∀ x, P x → Q x ∧ s1.block x = s.block x) :
    ∀ (cells : List xmlnode) (ts : List xmlnode_t),
      ReprListIn s P cells ts → ReprListIn s1 Q cells ts
  | [], [] => fun _ => by rw [ReprListIn]; trivial
  | cell :: cells, t :: ts => by
    intro h
    rw [ReprListIn] at h ⊢
    exact ⟨reprIn_transfer s s1 P Q hPQ cell t h.1,
      reprListIn_transfer s s1 P Q hPQ cells ts h.2⟩
  | [], _ :: _ => by intro h; rw [ReprListIn] at h; exact h.elim
  | _ :: _, [] => by intro h; rw [ReprListIn] at h; exact h.elim
end

theorem reprListIn_append (s : ParseState) (P : Nat → Prop) :
    ∀ (cells1 : List xmlnode) (ts1 : List xmlnode_t) (cells2 : List xmlnode)
      (ts2 : List xmlnode_t),
      ReprListIn s P cells1 ts1 → ReprListIn s P cells2 ts2 →
      ReprListIn s P (cells1 ++ cells2) (ts1 ++ ts2)
  | [], [], _, _ => fun _ h2 => by simpa using h2
  | cell :: cells, t :: ts, cells2, ts2 => by
    intro h1 h2
    rw [ReprListIn] at h1
    rw [List.cons_append, List.cons_append, ReprListIn]
    exact ⟨h1.1, reprListIn_append s P cells ts cells2 ts2 h1.2 h2⟩
  | [], _ :: _, _, _ => by intro h; rw [ReprListIn] at h; exact h.elim
  | _ :: _, [], _, _ => by intro h; rw [ReprListIn] at h; exact h.elim

theorem digitChar_spec (k : Nat) (h : k < 10) :
    (Nat.digitChar k).isDigit = true ∧ (Nat.digitChar k).toNat - 48 = k := by
  interval_cases k <;> decide

theorem decimalValue_append_singleton (ds : List Char) (c : Char) :
    decimalValue (ds ++ [c]) = 10 * decimalValue ds + (c.toNat - 48) := by
  simp [decimalValue, List.foldl_append]

/-- The digits `Nat.toDigits` produces spell the number. -/
theorem toDigitsCore_spec (n : Nat) :
    ∀ (fuel : Nat) (acc : List Char), n < fuel →
      ∃ ds, Nat.toDigitsCore 10 fuel n acc = ds ++ acc ∧ ds ≠ [] ∧
        (∀ c ∈ ds, c.isDigit = true) ∧ decimalValue ds = n := by
  induction n using Nat.strong_induction_on with
  | _ n ih =>
    intro fuel acc hfuel
    cases fuel with
    | zero => omega
    | succ fuel =>
      obtain ⟨hd1, hd2⟩ := digitChar_spec (n % 10) (Nat.mod_lt _ (by decide))
      by_cases hz : n / 10 = 0
      · refine ⟨[Nat.digitChar (n % 10)], ?_, by simp, ?_, ?_⟩
        · simp [Nat.toDigitsCore, hz]
        · intro c hc
          simp only [List.mem_singleton] at hc
          rw [hc]; exact hd1
        · simp only [decimalValue, List.foldl_cons, List.foldl_nil, hd2]
          omega
      · have hlt : n / 10 < n := by omega
        obtain ⟨ds, h1, _, h3, h4⟩ := ih (n / 10) hlt fuel
          (Nat.digitChar (n % 10) :: acc) (by omega)
        refine ⟨ds ++ [Nat.digitChar (n % 10)], ?_, by simp, ?_, ?_⟩
        · simp [Nat.toDigitsCore, hz, h1]
        · intro c hc
          rcases List.mem_append.1 hc with h | h
          · exact h3 c h
          · simp only [List.mem_singleton] at h
            rw [h]; exact hd1
        · rw [decimalValue_append_singleton, h4, hd2]
          omega

theorem toDigits_spec (n : Nat) :
    Nat.toDigits 10 n ≠ [] ∧ (∀ c ∈ Nat.toDigits 10 n, c.isDigit = true) ∧
      decimalValue (Nat.toDigits 10 n) = n := by
  obtain ⟨ds, h1, h2, h3, h4⟩ := toDigitsCore_spec n (n + 1) [] (by omega)
  have : Nat.toDigits 10 n = ds := by
    unfold Nat.toDigits
    rw [h1, List.append_nil]
  rw [this]
  exact ⟨h2, h3, h4⟩

theorem validName_spec (n : String) (h : validName n = true) :
    '>' ∉ n.data ∧ '/' ∉ n.data := by
  simp only [validName, Bool.and_eq_true, List.all_eq_true] at h
  constructor
  · intro hm
    have := h.2 _ hm
    revert this; decide
  · intro hm
    have := h.2 _ hm
    revert this; decide

/-- The leaf line of a valid leaf, parsed with `current` at a node, appends
that very leaf to the node. -/
theorem parseline_leafLine (l : xmlleaf_t) (zeroed : Bool) (s : ParseState) (cur : NodePtr)
    (node : xmlnode)
    (hl : validLeaf l = true) (hcur : s.current = some cur) (hnode : s.deref cur = some node)
    (hinit : node.initialised = true) :
    parseline (leafLine l) zeroed s =
      .ok (true,
        s.store cur ⟨node.leaves ++ [l], node.children, node.parent, node.name, true⟩) := by
  simp only [validLeaf, Bool.and_eq_true, decide_eq_true_eq] at hl
  obtain ⟨⟨hname, hfit⟩, hlen⟩ := hl
  obtain ⟨hgt, _⟩ := validName_spec l.name hname
  obtain ⟨hne, hdig, hval⟩ := toDigits_spec l.data
  unfold leafLine at hlen ⊢
  have hlen2 : l.name.data.length +
      (Nat.toDigits 10 l.data ++ '<' :: '/' :: (l.name.data ++ ['>'])).length + 2 ≤ 99 := by
    simp at hlen ⊢; omega
  have hrest : Nat.toDigits 10 l.data ++ '<' :: '/' :: (l.name.data ++ ['>']) ≠ [] := by simp
  have hno : '<' ∉ Nat.toDigits 10 l.data := by
    intro hmem
    have := hdig '<' hmem
    revert this
    decide
  have hoff : strchr ('>' :: (Nat.toDigits 10 l.data ++ '<' :: '/' :: (l.name.data ++ ['>'])))
      '<' = some ((Nat.toDigits 10 l.data).length + 1) := by
    have h1 : ¬ ('>' = '<') := by decide
    simp only [strchr, h1, if_false, strchr_append_of_not_mem _ _ '<' hno, if_true,
      Option.map_some']
    simp
  have hcopy : strncpy (Nat.toDigits 10 l.data ++ '<' :: '/' :: (l.name.data ++ ['>']))
      ((Nat.toDigits 10 l.data).length + 1 + 1 - 2) = Nat.toDigits 10 l.data := by
    simp [strncpy]
  have hat : atoi (Nat.toDigits 10 l.data) = some (l.data : Int) := by
    rw [atoi_digits _ hne hdig (by rw [hval]; exact hfit), hval]
  have hun : toUnsigned (l.data : Int) = l.data := toUnsigned_of_nat _ (by omega)
  have hni : ¬ (node.initialised = false) := by rw [hinit]; decide
  rw [parseline_tag l.name.data _ zeroed s hgt hlen2]
  simp only [hrest, if_false, hoff, hcopy, hat, hcur, hnode, hun, if_neg hni]
  rw [← hinit]

/-- The closing line of a valid name, parsed with `current` at a node. -/
theorem parseline_closeLine (n : String) (zeroed : Bool) (s : ParseState) (cur : NodePtr)
    (node : xmlnode)
    (hn : validName n = true) (hlen : (closeLine n).length ≤ 99)
    (hcur : s.current = some cur) (hnode : s.deref cur = some node) :
    parseline (closeLine n) zeroed s =
      .ok (true, ⟨s.blocks, some (node.parent.getD cur)⟩) := by
  obtain ⟨hgt, _⟩ := validName_spec n hn
  have h1 : '>' ∉ '/' :: n.data := by
    simp only [List.mem_cons, not_or]
    exact ⟨by decide, hgt⟩
  have hs : strchr ('/' :: n.data) '/' ≠ none := by simp [strchr]
  have := parseline_tag ('/' :: n.data) [] zeroed s h1 (by simp [closeLine] at hlen ⊢; omega)
  rw [List.cons_append] at this
  unfold closeLine
  rw [this]
  simp only [if_true, hs, if_false, hcur, hnode]
  cases hp : node.parent with
  | none =>
    simp only [Option.getD_none]
    rw [← hcur]
  | some p => simp

/-- The opening line of a valid name, parsed in any state. -/
theorem parseline_openLine (n : String) (zeroed : Bool) (s : ParseState)
    (hn : validName n = true) (hlen : (openLine n).length ≤ 99) :
    parseline (openLine n) zeroed s =
      match s.current with
      | none =>
        .ok (true, ⟨s.blocks ++ [some [⟨[], none, none, n, zeroed⟩]],
          some ⟨s.blocks.length, 0⟩⟩)
      | some cur =>
        match s.deref cur with
        | none => .error .invalidPointer
        | some node =>
          if node.initialised = false then .error .uninitialised
          else
            match node.children with
            | none =>
              .ok (true,
                ⟨(s.store cur { node with children := some s.blocks.length }).blocks ++
                    [some [⟨[], none, some cur, n, zeroed⟩]],
                 some ⟨s.blocks.length, 0⟩⟩)
            | some old =>
              match s.block old with
              | none => .error .invalidPointer
              | some cells =>
                .ok (true,
                  ⟨(s.store cur { node with children := some s.blocks.length }).blocks.set
                      old none ++ [some (cells ++ [⟨[], none, some cur, n, zeroed⟩])],
                   some ⟨s.blocks.length, cells.length⟩⟩) := by
  obtain ⟨hgt, hslash⟩ := validName_spec n hn
  have hs : strchr n.data '/' = none := (strchr_none_iff n.data '/').2 hslash
  have htag := parseline_tag n.data [] zeroed s hgt (by simp [openLine] at hlen ⊢; omega)
  simp only [if_true, hs] at htag
  unfold openLine
  rw [htag]

theorem deref_index_lt (s : ParseState) (p : NodePtr) (n : xmlnode) (cells : List xmlnode)
    (hb : s.block p.block = some cells) (h : s.deref p = some n) :
    p.index < cells.length ∧ cells[p.index]? = some n := by
  obtain ⟨cells2, hb2, hi⟩ := (deref_eq_some_iff s p n).1 h
  rw [hb] at hb2
  cases hb2
  refine ⟨?_, hi⟩
  rcases Nat.lt_or_ge p.index cells.length with h1 | h1
  · exact h1
  · rw [List.getElem?_eq_none h1] at hi; cases hi

theorem updated_refl (s : ParseState) (cur : NodePtr) (node : xmlnode)
    (hcur : s.current = some cur) (hnode : s.deref cur = some node) : Updated s s cur node := by
  refine ⟨hcur, hnode, ?_, fun _ _ => rfl, rfl⟩
  intro cells hb
  obtain ⟨hlt, hi⟩ := deref_index_lt s cur node cells hb hnode
  rw [hb]
  congr 1
  apply List.ext_getElem?
  intro i
  by_cases hic : cur.index = i
  · subst hic
    simp [hlt, hi]
  · simp [List.getElem?_set_ne hic]

theorem updated_store (s : ParseState) (cur : NodePtr) (node node1 : xmlnode)
    (hcur : s.current = some cur) (hnode : s.deref cur = some node) :
    Updated s (s.store cur node1) cur node1 := by
  refine ⟨(store_current _ _ _).trans hcur, deref_store_self s cur node node1 hnode, ?_, ?_,
    store_blocks_length _ _ _⟩
  · intro cells hb
    rw [block_store]
    simp [hb]
  · intro x hx
    rw [block_store]
    simp [hx]

theorem updated_trans (s s1 s2 : ParseState) (cur : NodePtr) (n1 n2 : xmlnode)
    (h1 : Updated s s1 cur n1) (h2 : Updated s1 s2 cur n2) : Updated s s2 cur n2 := by
  refine ⟨h2.current, h2.deref, ?_, ?_, h2.length.trans h1.length⟩
  · intro cells hb
    rw [h2.container _ (h1.container cells hb), List.set_set]
  · intro x hx
    rw [h2.frame x hx, h1.frame x hx]

/-- The leaf lines of valid leaves append these leaves, in order, to the
initialised node `current` points at. -/
theorem parselines_leaves (ls : List xmlleaf_t) :
    ∀ (s : ParseState) (cur : NodePtr) (node : xmlnode),
      ls.all validLeaf = true → s.current = some cur → s.deref cur = some node →
      node.initialised = true →
      ∃ s1, parselines (zeroedLines (ls.map leafLine)) s = .ok (true, s1) ∧
        Updated s s1 cur ⟨node.leaves ++ ls, node.children, node.parent, node.name, true⟩ := by
  induction ls with
  | nil =>
    intro s cur node _ hcur hnode hinit
    refine ⟨s, rfl, ?_⟩
    simp only [List.append_nil]
    have hn : (⟨node.leaves, node.children, node.parent, node.name, true⟩ : xmlnode) = node := by
      rw [← hinit]
    rw [hn]
    exact updated_refl s cur node hcur hnode
  | cons l ls ih =>
    intro s cur node hall hcur hnode hinit
    simp only [List.all_cons, Bool.and_eq_true] at hall
    have hstep := parseline_leafLine l true s cur node hall.1 hcur hnode hinit
    have hu := updated_store s cur node
      ⟨node.leaves ++ [l], node.children, node.parent, node.name, true⟩ hcur hnode
    obtain ⟨s1, hs1, hu1⟩ := ih _ cur _ hall.2 hu.current hu.deref rfl
    refine ⟨s1, ?_, ?_⟩
    · rw [List.map_cons, zeroedLines_cons, parselines_cons _ _ _ _ _ hstep]
      exact hs1
    · have := updated_trans _ _ _ cur _ _ hu hu1
      simpa [List.append_assoc] using this

/-- The opening line of a valid name, parsed with `current` at a node whose
children array (if any) is allocated apart from the node: the new node is
the last element of the new children array, which is the newest block. -/
theorem parseline_openLine_at (n : String) (s : ParseState) (cur : NodePtr) (node : xmlnode)
    (hn : validName n = true) (hlen : (openLine n).length ≤ 99)
    (hcur : s.current = some cur) (hnode : s.deref cur = some node)
    (hinit : node.initialised = true)
    (hwf : ∀ b, node.children = some b → b ≠ cur.block ∧ ∃ cells, s.block b = some cells) :
    ∃ s1, parseline (openLine n) true s = .ok (true, s1) ∧
      s1.current = some ⟨s.blocks.length, (s.kids node).length⟩ ∧
      s1.blocks.length = s.blocks.length + 1 ∧
      s1.block s.blocks.length = some (s.kids node ++ [⟨[], none, some cur, n, true⟩]) ∧
      (∀ cells, s.block cur.block = some cells →
        s1.block cur.block = some (cells.set cur.index
          ⟨node.leaves, some s.blocks.length, node.parent, node.name, true⟩)) ∧
      (∀ x, x < s.blocks.length → x ≠ cur.block → node.children ≠ some x →
        s1.block x = s.block x) := by
  have hni : ¬ (node.initialised = false) := by rw [hinit]; decide
  rw [parseline_openLine n true s hn hlen]
  simp only [hcur, hnode, if_neg hni]
  obtain ⟨ccells, hcb, hci⟩ := (deref_eq_some_iff s cur node).1 hnode
  have hcb2 := (block_eq_some_iff s cur.block ccells).1 hcb
  have hclt := block_lt s cur.block ccells hcb
  have hsb : (s.store cur { node with children := some s.blocks.length }).blocks =
      s.blocks.set cur.block
        (some (ccells.set cur.index { node with children := some s.blocks.length })) := by
    unfold ParseState.store
    simp [hcb]
  cases hch : node.children with
  | none =>
    simp only [hsb]
    refine ⟨_, rfl, ?_, ?_, ?_, ?_, ?_⟩
    · simp [ParseState.kids, hch]
    · simp
    · simp [ParseState.block, ParseState.kids, hch]
    · intro cells hb
      rw [hcb] at hb
      cases hb
      simp [ParseState.block, List.getElem?_append_left, hclt, hinit]
    · intro x hx hxc _
      have hne : cur.block ≠ x := fun e => hxc e.symm
      simp [ParseState.block, List.getElem?_append_left, hx, List.getElem?_set_ne hne]
  | some old =>
    obtain ⟨hold, cells, hcells⟩ := hwf old hch
    simp only [hsb, hcells]
    have hkids : s.kids node = cells := by simp [ParseState.kids, hch, hcells]
    refine ⟨_, rfl, ?_, ?_, ?_, ?_, ?_⟩
    · rw [hkids]
    · simp
    · simp [ParseState.block, hkids]
    · intro cells2 hb
      rw [hcb] at hb
      cases hb
      simp [ParseState.block, List.getElem?_append_left, hclt, List.getElem?_set_ne hold, hinit]
    · intro x hx hxc hxo
      have hne : cur.block ≠ x := fun e => hxc e.symm
      have hne2 : old ≠ x := fun e => hxo (by rw [e])
      simp [ParseState.block, List.getElem?_append_left, hx, List.getElem?_set_ne hne,
        List.getElem?_set_ne hne2]

theorem set_last (xs : List xmlnode) (a b : xmlnode) :
    (xs ++ [a]).set xs.length b = xs ++ [b] := by
  induction xs with
  | nil => rfl
  | cons x xs ih => simp [ih]

theorem getElem?_last (xs : List xmlnode) (a : xmlnode) :
    (xs ++ [a])[xs.length]? = some a := by
  simp

theorem reprListIn_nil_iff (s : ParseState) (P : Nat → Prop) :
    ∀ (cells : List xmlnode) (ts : List xmlnode_t), ReprListIn s P cells ts →
      (cells = [] ↔ ts = [])
  | [], [] => fun _ => by simp
  | _ :: _, _ :: _ => fun _ => by simp
  | [], _ :: _ => by intro h; rw [ReprListIn] at h; exact h.elim
  | _ :: _, [] => by intro h; rw [ReprListIn] at h; exact h.elim

theorem kids_of_block (s : ParseState) (node : xmlnode) (b : Nat) (cells : List xmlnode)
    (hc : node.children = some b) (hb : s.block b = some cells) : s.kids node = cells := by
  simp [ParseState.kids, hc, hb]

theorem kids_of_none (s : ParseState) (node : xmlnode) (hc : node.children = none) :
    s.kids node = [] := by
  simp [ParseState.kids, hc]

theorem wellFormed_mk (ls : List xmlleaf_t) (cs : List xmlnode_t) (n : String)
    (h : wellFormed (.mk ls cs n) = true) :
    validName n = true ∧ (openLine n).length ≤ 99 ∧ (closeLine n).length ≤ 99 ∧
      ls.all validLeaf = true ∧ wellFormedList cs = true := by
  rw [wellFormed] at h
  simp only [Bool.and_eq_true, decide_eq_true_eq] at h
  exact ⟨h.1.1.1.1, h.1.1.1.2, h.1.1.2, h.1.2, h.2⟩

/-- The empty list of trees: nothing is fed and nothing changes. -/
theorem buildsList_nil : BuildsList [] := by
  intro s cur node hcur hnode hinit hwf
  refine ⟨s, node, [], rfl, ?_, ?_⟩
  · have hu := updated_refl s cur node hcur hnode
    exact
      { current := hcur
        deref := hnode
        leaves := rfl
        parent := rfl
        name := rfl
        initialised := hinit
        kids := by simp
        children := by simp
        wf := hwf
        newblock := fun h => absurd rfl h
        unchanged := fun _ => rfl
        container := hu.container
        frame := fun _ _ _ _ => rfl
        grow := Nat.le_refl _ }
  · rw [ReprListIn]
    trivial

/-- A tree followed by more trees: the first tree is built as the next
child, the others after it. -/
theorem buildsList_cons (c : xmlnode_t) (cs : List xmlnode_t)
    (hB : BuildsTree c) (hL : BuildsList cs) : BuildsList (c :: cs) := by
  intro s cur node hcur hnode hinit hwf
  obtain ⟨ccells, hcb, _⟩ := (deref_eq_some_iff s cur node).1 hnode
  have hclt := block_lt s cur.block ccells hcb
  obtain ⟨s1, new1, b1, hp1, hb, hr1⟩ := hB s cur node hcur hnode hinit hwf
  have hb1ne : b1 ≠ cur.block := by have := hb.fresh; omega
  have hwf1 : ∀ b, (⟨node.leaves, some b1, node.parent, node.name, true⟩ : xmlnode).children = some b →
      b ≠ cur.block ∧ ∃ cells, s1.block b = some cells := by
    intro b hbb
    simp only [Option.some.injEq] at hbb
    subst hbb
    exact ⟨hb1ne, _, hb.block⟩
  obtain ⟨s2, node2, cells2, hp2, hbl, hr2⟩ :=
    hL s1 cur ⟨node.leaves, some b1, node.parent, node.name, true⟩ hb.current hb.deref rfl hwf1
  have hkids1 : s1.kids ⟨node.leaves, some b1, node.parent, node.name, true⟩ = s.kids node ++ [new1] :=
    kids_of_block s1 _ b1 _ rfl hb.block
  have hch2 : ∀ x, node2.children = some x → b1 ≤ x := by
    intro x hx
    by_cases hnil : cells2 = []
    · have := hbl.unchanged hnil
      rw [hx] at this
      simp only [Option.some.injEq] at this
      omega
    · have := hbl.newblock hnil x hx
      have := hb.live
      omega
  refine ⟨s2, node2, new1 :: cells2, ?_, ?_, ?_⟩
  · rw [canonicalTextList, zeroedLines_append, parselines_append _ _ s s1 hp1]
    exact hp2
  · exact
      { current := hbl.current
        deref := hbl.deref
        leaves := hbl.leaves
        parent := hbl.parent
        name := hbl.name
        initialised := hbl.initialised
        kids := by rw [hbl.kids, hkids1, List.append_assoc]; rfl
        children := by
          constructor
          · intro h
            have := (hbl.children.1 h).1
            cases this
          · intro h
            cases h.2
        wf := hbl.wf
        newblock := by
          intro _ x hx
          have := hch2 x hx
          have := hb.fresh
          omega
        unchanged := fun h => by cases h
        container := by
          intro cells hcells
          rw [hbl.container _ (hb.container cells hcells), List.set_set]
        frame := by
          intro x hx hxc hxo
          have hx1 : x < s1.blocks.length := by have := hb.grow; omega
          have hxb : (⟨node.leaves, some b1, node.parent, node.name, true⟩ : xmlnode).children ≠
              some x := by
            simp only [ne_eq, Option.some.injEq]
            have := hb.fresh
            omega
          rw [hbl.frame x hx1 hxc hxb, hb.frame x hx hxc hxo]
        grow := Nat.le_trans hb.grow hbl.grow }
  · rw [ReprListIn]
    constructor
    · apply reprIn_transfer s1 s2 _ _ _ new1 c hr1
      intro x hx
      obtain ⟨hx1, hx2⟩ := hx
      have hfresh := hb.fresh
      have hgrow := hbl.grow
      refine ⟨⟨by omega, by omega, ?_⟩, ?_⟩
      · intro hcx
        have := hch2 x hcx
        by_cases hnil : cells2 = []
        · have hu := hbl.unchanged hnil
          rw [hcx] at hu
          simp only [Option.some.injEq] at hu
          omega
        · have := hbl.newblock hnil x hcx
          omega
      · apply hbl.frame x hx2 (by omega)
        simp only [ne_eq, Option.some.injEq]
        omega
    · apply reprListIn_transfer s2 s2 _ _ _ cells2 cs hr2
      intro x hx
      have hgrow := hb.grow
      exact ⟨⟨by omega, hx.2.1, hx.2.2⟩, rfl⟩

theorem block_mk (blocks : List (Option (List xmlnode))) (c : Option NodePtr) (x : Nat) :
    ParseState.block ⟨blocks, c⟩ x = (blocks[x]?).getD none := rfl

/-- A node with valid name, valid leaves and buildable children: its
canonical text opens the node as the next child, fills in leaves and
children, and closes it. -/
theorem buildsTree_mk (ls : List xmlleaf_t) (cs : List xmlnode_t) (n : String)
    (hn : validName n = true) (hopen : (openLine n).length ≤ 99)
    (hclose : (closeLine n).length ≤ 99) (hleaves : ls.all validLeaf = true)
    (hL : BuildsList cs) : BuildsTree (.mk ls cs n) := by
  intro s cur node hcur hnode hinit hwf
  obtain ⟨ccells, hcb, _⟩ := (deref_eq_some_iff s cur node).1 hnode
  have hclt := block_lt s cur.block ccells hcb
  -- the opening line
  obtain ⟨s1, hp1, hc1, hl1, hb1, hcont1, hfr1⟩ :=
    parseline_openLine_at n s cur node hn hopen hcur hnode hinit hwf
  have hd1 : s1.deref ⟨s.blocks.length, (s.kids node).length⟩ =
      some ⟨[], none, some cur, n, true⟩ := by
    rw [deref_eq_some_iff]
    exact ⟨_, hb1, getElem?_last _ _⟩
  -- the leaf lines
  obtain ⟨s2, hp2, hu2⟩ := parselines_leaves ls s1 _ _ hleaves hc1 hd1 rfl
  simp only [List.nil_append] at hu2
  -- the children
  obtain ⟨s3, node3, newcells, hp3, hbl, hr3⟩ :=
    hL s2 _ _ hu2.current hu2.deref rfl (by intro b hb; cases hb)
  -- the closing line
  have hp4 := parseline_closeLine n true s3 _ node3 hn hclose hbl.current hbl.deref
  have hpar : node3.parent = some cur := hbl.parent
  rw [hpar, Option.getD_some] at hp4
  have hlen2 : s2.blocks.length = s.blocks.length + 1 := by rw [hu2.length, hl1]
  have hblock2 : s2.block s.blocks.length =
      some ((s.kids node ++ [(⟨[], none, some cur, n, true⟩ : xmlnode)]).set (s.kids node).length
        ⟨ls, none, some cur, n, true⟩) := hu2.container _ hb1
  have hblock3 : s3.block s.blocks.length = some (s.kids node ++ [node3]) := by
    have := hbl.container _ hblock2
    rw [this, List.set_set, set_last]
  have hother : ∀ x, x < s.blocks.length → s3.block x = s1.block x := by
    intro x hx
    have hne : x ≠ s.blocks.length := by omega
    rw [hbl.frame x (by omega) hne (by simp), hu2.frame x hne]
  have hnewne : newcells ≠ [] → ∀ b, node3.children = some b → s.blocks.length < b := by
    intro h b hb
    have := hbl.newblock h b hb
    omega
  refine ⟨⟨s3.blocks, some cur⟩, node3, s.blocks.length, ?_, ?_, ?_⟩
  · rw [canonicalText, zeroedLines_cons, parselines_cons _ _ _ _ _ hp1, zeroedLines_append,
      parselines_append _ _ s1 s2 hp2, zeroedLines_append, parselines_append _ _ s2 s3 hp3,
      zeroedLines_cons, parselines_cons _ _ _ _ _ hp4]
    rfl
  · exact
      { current := rfl
        deref := by
          rw [deref_eq_some_iff]
          refine ⟨ccells.set cur.index
            ⟨node.leaves, some s.blocks.length, node.parent, node.name, true⟩,
            ?_, ?_⟩
          · show s3.block cur.block = _
            rw [hother _ hclt]
            exact hcont1 _ hcb
          · obtain ⟨hlt, _⟩ := deref_index_lt s cur node ccells hcb hnode
            simp [hlt]
        fresh := Nat.le_refl _
        live := by
          show s.blocks.length < s3.blocks.length
          have := hbl.grow
          omega
        block := hblock3
        container := by
          intro cells hcells
          show s3.block cur.block = _
          rw [hother _ hclt]
          exact hcont1 _ hcells
        frame := by
          intro x hx hxc hxo
          show s3.block x = _
          rw [hother x hx]
          exact hfr1 x hx hxc hxo
        grow := by
          show s.blocks.length ≤ s3.blocks.length
          have := hbl.grow
          omega }
  · have hnil := reprListIn_nil_iff _ _ _ _ hr3
    rw [ReprIn]
    refine ⟨hbl.initialised, hbl.name, hbl.leaves, ?_, ?_, ?_⟩
    · rw [hbl.children, ← hnil]
      simp
    · intro b hb
      have hne : newcells ≠ [] := by
        intro h
        have := hbl.unchanged h
        rw [hb] at this
        cases this
      refine ⟨hnewne hne b hb, ?_⟩
      obtain ⟨_, cells, hcells⟩ := hbl.wf b hb
      exact block_lt s3 b cells hcells
    · have hk : ParseState.kids ⟨s3.blocks, some cur⟩ node3 = newcells := by
        have h1 : ParseState.kids ⟨s3.blocks, some cur⟩ node3 = s3.kids node3 := rfl
        rw [h1, hbl.kids, kids_of_none s2 _ rfl, List.nil_append]
      rw [hk]
      apply reprListIn_transfer s3 ⟨s3.blocks, some cur⟩ _ _ _ newcells cs hr3
      intro x hx
      exact ⟨⟨by omega, hx.2.1⟩, rfl⟩

mutual
/-- Every well-formed tree is built by its canonical text. -/
theorem buildsTree_of_wellFormed : ∀ (t : xmlnode_t), wellFormed t = true → BuildsTree t
  | .mk ls cs n => fun h =>
    have hw := wellFormed_mk ls cs n h
    buildsTree_mk ls cs n hw.1 hw.2.1 hw.2.2.1 hw.2.2.2.1
      (buildsList_of_wellFormed cs hw.2.2.2.2)
/-- Every list of well-formed trees is built by its canonical texts. -/
theorem buildsList_of_wellFormed :
    ∀ (cs : List xmlnode_t), wellFormedList cs = true → BuildsList cs
  | [] => fun _ => buildsList_nil
  | c :: cs => fun h =>
    have hw : wellFormed c = true ∧ wellFormedList cs = true := by
      rw [wellFormedList] at h
      simpa using h
    buildsList_cons c cs (buildsTree_of_wellFormed c hw.1) (buildsList_of_wellFormed cs hw.2)
end

/-- The round trip with zero-filled allocations.  For every schema tree
whose node and leaf names are non-empty and free of `<`, `>`, `/`, `!`,
space, tab and newline, whose leaf sizes fit in `int` and whose canonical
lines have at most 99 characters, feeding `parseline` the canonical text
of the tree line by line from the empty state, each node being created in
zero-filled storage, succeeds on every line; afterwards `current` points
at the head node, which has a `NULL` parent and holds exactly that tree. -/
theorem parselines_zeroed (t : xmlnode_t) (h : wellFormed t = true) :
    ∃ s node, parselines (zeroedLines (canonicalText t)) ParseState.empty = .ok (true, s) ∧
      s.current = some ⟨0, 0⟩ ∧ s.deref ⟨0, 0⟩ = some node ∧ node.parent = none ∧
      Represents s node t := by
  cases t with
  | mk ls cs n =>
    obtain ⟨hn, hopen, hclose, hleaves, hcs⟩ := wellFormed_mk ls cs n h
    -- the opening line creates the head node
    have hp1 := parseline_openLine n true ParseState.empty hn hopen
    simp only [ParseState.empty, List.nil_append, List.length_nil] at hp1
    have hd1 : ParseState.deref ⟨[some [⟨[], none, none, n, true⟩]], some ⟨0, 0⟩⟩ ⟨0, 0⟩ =
        some ⟨[], none, none, n, true⟩ := rfl
    obtain ⟨s2, hp2, hu2⟩ := parselines_leaves ls _ _ _ hleaves rfl hd1 rfl
    simp only [List.nil_append] at hu2
    obtain ⟨s3, node3, newcells, hp3, hbl, hr3⟩ :=
      buildsList_of_wellFormed cs hcs s2 _ _ hu2.current hu2.deref rfl (by intro b hb; cases hb)
    have hp4 := parseline_closeLine n true s3 _ node3 hn hclose hbl.current hbl.deref
    have hpar : node3.parent = none := hbl.parent
    rw [hpar, Option.getD_none] at hp4
    refine ⟨⟨s3.blocks, some ⟨0, 0⟩⟩, node3, ?_, rfl, ?_, hpar, ?_⟩
    · show parselines (zeroedLines (canonicalText (.mk ls cs n))) ⟨[], none⟩ = _
      rw [canonicalText, zeroedLines_cons, parselines_cons _ _ _ _ _ hp1, zeroedLines_append,
        parselines_append _ _ _ s2 hp2, zeroedLines_append, parselines_append _ _ s2 s3 hp3,
        zeroedLines_cons, parselines_cons _ _ _ _ _ hp4]
      rfl
    · exact hbl.deref
    · have hnil := reprListIn_nil_iff _ _ _ _ hr3
      unfold Represents
      rw [ReprIn]
      refine ⟨hbl.initialised, hbl.name, hbl.leaves, ?_, fun _ _ => trivial, ?_⟩
      · rw [hbl.children, ← hnil]
        simp
      · have hk : ParseState.kids ⟨s3.blocks, some ⟨0, 0⟩⟩ node3 = newcells := by
          have h1 : ParseState.kids ⟨s3.blocks, some ⟨0, 0⟩⟩ node3 = s3.kids node3 := rfl
          rw [h1, hbl.kids, kids_of_none s2 _ rfl, List.nil_append]
        rw [hk]
        apply reprListIn_transfer s3 ⟨s3.blocks, some ⟨0, 0⟩⟩ _ _ _ newcells cs hr3
        intro x _
        exact ⟨trivial, rfl⟩

/-- C20, the claim against the code.  When every node is created in
zero-filled storage the round trip holds: the canonical text of a
well-formed tree is accepted line by line from the empty state, and
afterwards `current` points at the head node, which has a `NULL` parent
and holds exactly that tree.  At the failing input it does not: for the
tree `r > [a, c > [d {x: 5}]]`, with the node `d` created in storage that
is not zero-filled (the block the `realloc` at `<c>` released), the leaf
line `<x>5</x>` increments an `nleaves` that nothing ever stored and the
build has no defined result; and for the tree `r > [a, c > [d]]` every
line is accepted, `current` is back at the head node, and the storage
does not hold the tree, the fields of `d` not being initialised. -/
theorem parselines_canonicalText :
    (∀ (t : xmlnode_t), wellFormed t = true →
      ∃ s node, parselines (zeroedLines (canonicalText t)) ParseState.empty = .ok (true, s) ∧
        s.current = some ⟨0, 0⟩ ∧ s.deref ⟨0, 0⟩ = some node ∧ node.parent = none ∧
        Represents s node t) ∧
    (wellFormed (.mk [] [.mk [] [] "a", .mk [] [.mk [⟨5, "x"⟩] [] "d"] "c"] "r") = true ∧
      parselines
        (List.zip [true, true, true, true, false, true, true, true, true]
          (canonicalText (.mk [] [.mk [] [] "a", .mk [] [.mk [⟨5, "x"⟩] [] "d"] "c"] "r")))
        ParseState.empty = .error .uninitialised) ∧
    (wellFormed (.mk [] [.mk [] [] "a", .mk [] [.mk [] [] "d"] "c"] "r") = true ∧
      ∃ s node, parselines
          (List.zip [true, true, true, true, false, true, true, true]
            (canonicalText (.mk [] [.mk [] [] "a", .mk [] [.mk [] [] "d"] "c"] "r")))
          ParseState.empty = .ok (true, s) ∧
        s.current = some ⟨0, 0⟩ ∧ s.deref ⟨0, 0⟩ = some node ∧
        ¬ Represents s node (.mk [] [.mk [] [] "a", .mk [] [.mk [] [] "d"] "c"] "r")) := by
  refine ⟨parselines_zeroed, ⟨by decide, rfl⟩, by decide, _, _, rfl, rfl, rfl, ?_⟩
  intro hrep
  simp [Represents, ReprIn, ReprListIn, ParseState.kids, ParseState.block] at hrep

/-- Witness for C20: the reference schema, every node in zero-filled
storage. -/
theorem parselines_canonicalText_witness :
    ∃ s node, parselines (zeroedLines (canonicalText referenceSchema)) ParseState.empty =
        .ok (true, s) ∧
      s.current = some ⟨0, 0⟩ ∧ s.deref ⟨0, 0⟩ = some node ∧ node.parent = none ∧
      Represents s node referenceSchema :=
  parselines_canonicalText.1 referenceSchema (by decide)

end MessageParser
